import Mathlib

/-!
Verification of the scheduling core of the lesson-booking marketplace.

Times are modelled as absolute UTC instants in milliseconds (`Int`), matching
the millisecond arithmetic the source performs through luxon `DateTime` /
JS `Date`.  Half-open intervals `[startMs, endMs)` follow the source shape
`{ startMs, endMs }`.  JS `%` on numbers is truncated remainder, modelled by
`Int.tmod`; luxon calendar-field flooring (`set {second: 0}` etc.) is the
euclidean remainder `Int.emod`.
-/

namespace Space23

/-- Half-open interval in absolute milliseconds, after
`lib/scheduling/mergeIntervals.ts` `type Interval = { startMs, endMs }`. -/
structure Interval where
  startMs : Int
  endMs : Int
  deriving DecidableEq, Repr

/-- Validity predicate used by the `cleaned` filter in `mergeIntervals`:
finite numbers are automatic for `Int`, so only `endMs > startMs` remains. -/
def wfB (i : Interval) : Bool := i.startMs < i.endMs

/-- Comparator of `mergeIntervals`: `a.startMs - b.startMs || a.endMs - b.endMs`,
as the total preorder it induces.  JS `Array.prototype.sort` is a stable sort
by this comparator, modelled by the (stable) insertion sort. -/
def intervalLE (a b : Interval) : Prop :=
  a.startMs < b.startMs ∨ (a.startMs = b.startMs ∧ a.endMs ≤ b.endMs)

instance : DecidableRel intervalLE := fun a b => by
  unfold intervalLE; infer_instance

instance : IsTrans Interval intervalLE :=
  ⟨fun a b c hab hbc => by unfold intervalLE at *; omega⟩

instance : IsTotal Interval intervalLE :=
  ⟨fun a b => by unfold intervalLE; omega⟩

/-- Accumulator loop of `mergeIntervals`: `cur` is the interval being grown,
merging any following interval that starts at or before `cur.endMs`. -/
def mergeLoop (cur : Interval) : List Interval → List Interval
  | [] => [cur]
  | next :: rest =>
    if next.startMs ≤ cur.endMs then
      mergeLoop ⟨cur.startMs, max cur.endMs next.endMs⟩ rest
    else
      cur :: mergeLoop next rest

/-- The `cleaned` list of `mergeIntervals`: drop invalid intervals, sort by
start then end. -/
def cleanSort (l : List Interval) : List Interval :=
  (l.filter wfB).insertionSort intervalLE

/-- `mergeIntervals` from `lib/scheduling` (the pure `Interval` version):
filter invalid entries, sort by `(startMs, endMs)`, then merge touching or
overlapping neighbours. -/
def mergeIntervals (l : List Interval) : List Interval :=
  match cleanSort l with
  | [] => []
  | c :: cs => mergeLoop c cs

/-- Membership of a time point in one interval. -/
def memI (t : Int) (i : Interval) : Prop := i.startMs ≤ t ∧ t < i.endMs

instance (t : Int) (i : Interval) : Decidable (memI t i) := by
  unfold memI; infer_instance

/-- Membership of a time point in the union of a list of intervals. -/
def memU (t : Int) (l : List Interval) : Prop := ∃ i ∈ l, memI t i

instance (t : Int) (l : List Interval) : Decidable (memU t l) := by
  unfold memU; infer_instance

theorem cleanSort_pairwise (l : List Interval) :
    (cleanSort l).Pairwise intervalLE :=
  List.sorted_insertionSort intervalLE (l.filter wfB)

theorem cleanSort_perm (l : List Interval) :
    List.Perm (cleanSort l) (l.filter wfB) :=
  List.perm_insertionSort intervalLE (l.filter wfB)

theorem cleanSort_wf (l : List Interval) :
    ∀ i ∈ cleanSort l, i.startMs < i.endMs := by
  intro i hi
  have : i ∈ l.filter wfB := (cleanSort_perm l).mem_iff.mp hi
  have := List.of_mem_filter this
  simpa [wfB] using this

theorem memU_perm {l₁ l₂ : List Interval} (h : List.Perm l₁ l₂) (t : Int) :
    memU t l₁ ↔ memU t l₂ := by
  unfold memU
  constructor
  · rintro ⟨i, hi, hm⟩; exact ⟨i, h.mem_iff.mp hi, hm⟩
  · rintro ⟨i, hi, hm⟩; exact ⟨i, h.mem_iff.mpr hi, hm⟩

theorem memU_cons (t : Int) (i : Interval) (l : List Interval) :
    memU t (i :: l) ↔ memI t i ∨ memU t l := by
  unfold memU; simp

theorem memU_append (t : Int) (l₁ l₂ : List Interval) :
    memU t (l₁ ++ l₂) ↔ memU t l₁ ∨ memU t l₂ := by
  unfold memU
  constructor
  · rintro ⟨i, hi, hm⟩
    rcases List.mem_append.mp hi with h | h
    · exact Or.inl ⟨i, h, hm⟩
    · exact Or.inr ⟨i, h, hm⟩
  · rintro (⟨i, hi, hm⟩ | ⟨i, hi, hm⟩)
    · exact ⟨i, List.mem_append.mpr (Or.inl hi), hm⟩
    · exact ⟨i, List.mem_append.mpr (Or.inr hi), hm⟩

theorem mergeLoop_starts_ge (rest : List Interval) (cur : Interval)
    (hs : (cur :: rest).Pairwise (fun a b => a.startMs ≤ b.startMs)) :
    ∀ j ∈ mergeLoop cur rest, cur.startMs ≤ j.startMs := by
  induction rest generalizing cur with
  | nil =>
    intro j hj
    simp only [mergeLoop, List.mem_singleton] at hj
    exact hj ▸ le_refl _
  | cons next rest ih =>
    intro j hj
    rw [List.pairwise_cons] at hs
    obtain ⟨hcur, hrest⟩ := hs
    simp only [mergeLoop] at hj
    by_cases hcond : next.startMs ≤ cur.endMs
    · rw [if_pos hcond] at hj
      have hs' : (Interval.mk cur.startMs (max cur.endMs next.endMs) :: rest).Pairwise
          (fun a b => a.startMs ≤ b.startMs) := by
        rw [List.pairwise_cons]
        refine ⟨fun b hb => hcur b (List.mem_cons_of_mem _ hb), ?_⟩
        exact (List.pairwise_cons.mp hrest).2
      exact ih _ hs' j hj
    · rw [if_neg hcond] at hj
      rcases List.mem_cons.mp hj with h | h
      · exact h ▸ le_refl _
      · exact le_trans (hcur next (List.mem_cons_self _ _)) (ih next hrest j h)

theorem mergeLoop_wf (rest : List Interval) (cur : Interval)
    (hcur : cur.startMs < cur.endMs) (hrest : ∀ i ∈ rest, i.startMs < i.endMs) :
    ∀ j ∈ mergeLoop cur rest, j.startMs < j.endMs := by
  induction rest generalizing cur with
  | nil =>
    intro j hj
    simp only [mergeLoop, List.mem_singleton] at hj
    exact hj ▸ hcur
  | cons next rest ih =>
    intro j hj
    simp only [mergeLoop] at hj
    by_cases hcond : next.startMs ≤ cur.endMs
    · rw [if_pos hcond] at hj
      refine ih ⟨cur.startMs, max cur.endMs next.endMs⟩ ?_ ?_ j hj
      · exact lt_of_lt_of_le hcur (le_max_left _ _)
      · exact fun i hi => hrest i (List.mem_cons_of_mem _ hi)
    · rw [if_neg hcond] at hj
      rcases List.mem_cons.mp hj with h | h
      · exact h ▸ hcur
      · exact ih next (hrest next (List.mem_cons_self _ _))
          (fun i hi => hrest i (List.mem_cons_of_mem _ hi)) j h

theorem mergeLoop_gap (rest : List Interval) (cur : Interval)
    (hs : (cur :: rest).Pairwise (fun a b => a.startMs ≤ b.startMs)) :
    (mergeLoop cur rest).Pairwise (fun a b => a.endMs < b.startMs) := by
  induction rest generalizing cur with
  | nil => simp [mergeLoop]
  | cons next rest ih =>
    rw [List.pairwise_cons] at hs
    obtain ⟨hcur, hrest⟩ := hs
    simp only [mergeLoop]
    by_cases hcond : next.startMs ≤ cur.endMs
    · rw [if_pos hcond]
      refine ih ⟨cur.startMs, max cur.endMs next.endMs⟩ ?_
      rw [List.pairwise_cons]
      refine ⟨fun b hb => hcur b (List.mem_cons_of_mem _ hb), ?_⟩
      exact (List.pairwise_cons.mp hrest).2
    · rw [if_neg hcond]
      rw [List.pairwise_cons]
      refine ⟨?_, ih next hrest⟩
      intro j hj
      have h1 : next.startMs ≤ j.startMs := mergeLoop_starts_ge rest next hrest j hj
      omega

theorem mergeLoop_memU (rest : List Interval) (cur : Interval)
    (hs : (cur :: rest).Pairwise (fun a b => a.startMs ≤ b.startMs))
    (hwf : ∀ i ∈ cur :: rest, i.startMs < i.endMs) (t : Int) :
    memU t (mergeLoop cur rest) ↔ memI t cur ∨ memU t rest := by
  induction rest generalizing cur with
  | nil =>
    simp only [mergeLoop]
    rw [memU_cons]
  | cons next rest ih =>
    rw [List.pairwise_cons] at hs
    obtain ⟨hcur, hrest⟩ := hs
    have hwfcur : cur.startMs < cur.endMs := hwf cur (List.mem_cons_self _ _)
    have hwfnext : next.startMs < next.endMs :=
      hwf next (List.mem_cons_of_mem _ (List.mem_cons_self _ _))
    simp only [mergeLoop]
    by_cases hcond : next.startMs ≤ cur.endMs
    · rw [if_pos hcond]
      have hs' : (Interval.mk cur.startMs (max cur.endMs next.endMs) :: rest).Pairwise
          (fun a b => a.startMs ≤ b.startMs) := by
        rw [List.pairwise_cons]
        refine ⟨fun b hb => hcur b (List.mem_cons_of_mem _ hb), ?_⟩
        exact (List.pairwise_cons.mp hrest).2
      have hwf' : ∀ i ∈ Interval.mk cur.startMs (max cur.endMs next.endMs) :: rest,
          i.startMs < i.endMs := by
        intro i hi
        rcases List.mem_cons.mp hi with h | h
        · subst h; exact lt_of_lt_of_le hwfcur (le_max_left _ _)
        · exact hwf i (List.mem_cons_of_mem _ (List.mem_cons_of_mem _ h))
      rw [ih _ hs' hwf']
      have hcs : cur.startMs ≤ next.startMs := hcur next (List.mem_cons_self _ _)
      have hsplit : memI t ⟨cur.startMs, max cur.endMs next.endMs⟩ ↔
          (memI t cur ∨ memI t next) := by
        unfold memI
        dsimp only
        have h1 : cur.endMs ≤ max cur.endMs next.endMs := le_max_left _ _
        have h2 : next.endMs ≤ max cur.endMs next.endMs := le_max_right _ _
        have h3 : max cur.endMs next.endMs = cur.endMs ∨
            max cur.endMs next.endMs = next.endMs := max_choice _ _
        constructor
        · intro h; omega
        · intro h; omega
      rw [hsplit, memU_cons]
      tauto
    · rw [if_neg hcond]
      rw [memU_cons]
      have hwf' : ∀ i ∈ next :: rest, i.startMs < i.endMs :=
        fun i hi => hwf i (List.mem_cons_of_mem _ hi)
      rw [ih next hrest hwf', memU_cons]

theorem mergeLoop_of_gap (rest : List Interval) (cur : Interval)
    (h : (cur :: rest).Pairwise (fun a b => a.endMs < b.startMs)) :
    mergeLoop cur rest = cur :: rest := by
  induction rest generalizing cur with
  | nil => simp [mergeLoop]
  | cons next rest ih =>
    rw [List.pairwise_cons] at h
    obtain ⟨hcur, hrest⟩ := h
    have hgap : cur.endMs < next.startMs := hcur next (List.mem_cons_self _ _)
    simp only [mergeLoop]
    rw [if_neg (by omega)]
    rw [ih next hrest]

theorem cleanSort_starts (l : List Interval) :
    (cleanSort l).Pairwise (fun a b => a.startMs ≤ b.startMs) := by
  refine (cleanSort_pairwise l).imp ?_
  intro a b hab
  unfold intervalLE at hab
  omega

theorem mergeIntervals_gap (l : List Interval) :
    (mergeIntervals l).Pairwise (fun a b => a.endMs < b.startMs) := by
  unfold mergeIntervals
  rcases hcs : cleanSort l with _ | ⟨c, cs⟩
  · simp
  · exact mergeLoop_gap cs c (hcs ▸ cleanSort_starts l)

theorem mergeIntervals_wf (l : List Interval) :
    ∀ i ∈ mergeIntervals l, i.startMs < i.endMs := by
  unfold mergeIntervals
  rcases hcs : cleanSort l with _ | ⟨c, cs⟩
  · simp
  · have hwf := hcs ▸ cleanSort_wf l
    exact mergeLoop_wf cs c (hwf c (List.mem_cons_self _ _))
      (fun i hi => hwf i (List.mem_cons_of_mem _ hi))

theorem mergeIntervals_memU (l : List Interval)
    (hwf : ∀ i ∈ l, i.startMs < i.endMs) (t : Int) :
    memU t (mergeIntervals l) ↔ memU t l := by
  have hfilter : l.filter wfB = l :=
    List.filter_eq_self.mpr (fun i hi => by simpa [wfB] using hwf i hi)
  unfold mergeIntervals
  rcases hcs : cleanSort l with _ | ⟨c, cs⟩
  · have hnil : l = [] := by
      have hperm := cleanSort_perm l
      rw [hcs, hfilter] at hperm
      exact hperm.symm.eq_nil
    subst hnil
    simp
  · have hperm := cleanSort_perm l
    rw [hcs, hfilter] at hperm
    have hstarts := hcs ▸ cleanSort_starts l
    have hwf' : ∀ i ∈ c :: cs, i.startMs < i.endMs := hcs ▸ cleanSort_wf l
    rw [mergeLoop_memU cs c hstarts hwf' t, ← memU_cons]
    exact memU_perm hperm t

theorem mergeIntervals_pairwiseLE (l : List Interval) :
    (mergeIntervals l).Pairwise intervalLE := by
  refine List.Pairwise.imp_of_mem ?_ (mergeIntervals_gap l)
  intro a b ha _ hab
  have hwa := mergeIntervals_wf l a ha
  unfold intervalLE
  omega

theorem mergeIntervals_of_fixed (m : List Interval)
    (h1 : cleanSort m = m)
    (h2 : m.Pairwise (fun a b => a.endMs < b.startMs)) :
    mergeIntervals m = m := by
  unfold mergeIntervals
  rw [h1]
  rcases m with _ | ⟨c, cs⟩
  · rfl
  · exact mergeLoop_of_gap cs c h2

theorem mergeIntervals_idem (l : List Interval) :
    mergeIntervals (mergeIntervals l) = mergeIntervals l := by
  refine mergeIntervals_of_fixed _ ?_ (mergeIntervals_gap l)
  unfold cleanSort
  rw [List.filter_eq_self.mpr
    (fun i hi => by simpa [wfB] using mergeIntervals_wf l i hi)]
  exact List.Sorted.insertionSort_eq (mergeIntervals_pairwiseLE l)

/-- C4: for every list of well-formed intervals, the output of
`mergeIntervals` is sorted by start, pairwise non-overlapping and
non-touching (each end strictly below the next start), its union equals the
union of the input, and `mergeIntervals` is idempotent. -/
theorem mergeIntervals_spec (l : List Interval)
    (hwf : ∀ i ∈ l, i.startMs < i.endMs) :
    (mergeIntervals l).Pairwise
      (fun a b => a.startMs < b.startMs ∧ a.endMs < b.startMs)
    ∧ (∀ t : Int, memU t (mergeIntervals l) ↔ memU t l)
    ∧ mergeIntervals (mergeIntervals l) = mergeIntervals l := by
  refine ⟨?_, mergeIntervals_memU l hwf, mergeIntervals_idem l⟩
  refine List.Pairwise.imp_of_mem ?_ (mergeIntervals_gap l)
  intro a b ha _ hab
  have := mergeIntervals_wf l a ha
  omega

theorem mergeIntervals_spec_witness :
    (∀ i ∈ ([⟨0, 1800000⟩, ⟨2700000, 3600000⟩, ⟨900000, 2700000⟩] :
        List Interval), i.startMs < i.endMs)
    ∧ ((mergeIntervals [⟨0, 1800000⟩, ⟨2700000, 3600000⟩, ⟨900000, 2700000⟩]).Pairwise
        (fun a b => a.startMs < b.startMs ∧ a.endMs < b.startMs)
      ∧ (∀ t : Int, memU t (mergeIntervals
            [⟨0, 1800000⟩, ⟨2700000, 3600000⟩, ⟨900000, 2700000⟩]) ↔
          memU t [⟨0, 1800000⟩, ⟨2700000, 3600000⟩, ⟨900000, 2700000⟩])
      ∧ mergeIntervals (mergeIntervals
            [⟨0, 1800000⟩, ⟨2700000, 3600000⟩, ⟨900000, 2700000⟩]) =
          mergeIntervals [⟨0, 1800000⟩, ⟨2700000, 3600000⟩, ⟨900000, 2700000⟩]) :=
  ⟨by decide, mergeIntervals_spec _ (by decide)⟩

/-- dropPassed models the cut-pointer advancement
`while (j < b.length && b[j].endMs <= curStart) j++` of `subtractIntervals`;
the pointer persists across base segments, so the remaining cut list is
threaded through `subGo`. -/
def dropPassed (s : Int) : List Interval → List Interval
  | [] => []
  | c :: rest => if c.endMs ≤ s then dropPassed s rest else c :: rest

/-- subInner models the inner `while (k < b.length && b[k].startMs < curEnd)`
loop of `subtractIntervals` over one base segment: emit the left remainder
before each overlapping cut, advance `curStart` past the cut, break once the
segment is exhausted, and finally emit the right remainder. -/
def subInner (curStart curEnd : Int) : List Interval → List Interval
  | [] => if curStart < curEnd then [⟨curStart, curEnd⟩] else []
  | c :: rest =>
    if c.startMs < curEnd then
      (if curStart < c.startMs then [⟨curStart, min c.startMs curEnd⟩] else []) ++
      (if curEnd ≤ max curStart c.endMs then []
       else subInner (max curStart c.endMs) curEnd rest)
    else if curStart < curEnd then [⟨curStart, curEnd⟩] else []

/-- subGo models the outer `for (const seg of a)` loop of
`subtractIntervals`. -/
def subGo : List Interval → List Interval → List Interval
  | [], _ => []
  | seg :: segs, cuts =>
    subInner seg.startMs seg.endMs (dropPassed seg.startMs cuts)
      ++ subGo segs (dropPassed seg.startMs cuts)

/-- `subtractIntervals` from `lib/scheduling`: merge both inputs, then sweep
the merged cuts over the merged base segments. -/
def subtractIntervals (base cut : List Interval) : List Interval :=
  let a := mergeIntervals base
  let b := mergeIntervals cut
  if a.length = 0 then []
  else if b.length = 0 then a
  else subGo a b

theorem subInner_bounds (cuts : List Interval) (s e : Int) (hse : s < e) :
    ∀ i ∈ subInner s e cuts, s ≤ i.startMs ∧ i.startMs < i.endMs ∧ i.endMs ≤ e := by
  induction cuts generalizing s with
  | nil =>
    intro i hi
    simp only [subInner, if_pos hse, List.mem_singleton] at hi
    subst hi
    refine ⟨le_refl _, hse, le_refl _⟩
  | cons c0 rest ih =>
    intro i hi
    simp only [subInner] at hi
    by_cases h1 : c0.startMs < e
    · rw [if_pos h1] at hi
      rcases List.mem_append.mp hi with hL | hR
      · by_cases h3 : s < c0.startMs
        · rw [if_pos h3, List.mem_singleton] at hL
          subst hL
          refine ⟨le_refl _, lt_min h3 hse, min_le_right _ _⟩
        · rw [if_neg h3] at hL
          exact absurd hL (List.not_mem_nil _)
      · by_cases h2 : e ≤ max s c0.endMs
        · rw [if_pos h2] at hR
          exact absurd hR (List.not_mem_nil _)
        · rw [if_neg h2] at hR
          push_neg at h2
          obtain ⟨hb1, hb2, hb3⟩ := ih (max s c0.endMs) h2 i hR
          exact ⟨le_trans (le_max_left _ _) hb1, hb2, hb3⟩
    · rw [if_neg h1, if_pos hse, List.mem_singleton] at hi
      subst hi
      exact ⟨le_refl _, hse, le_refl _⟩

theorem subInner_avoid (cuts : List Interval) (s e : Int) (hse : s < e)
    (hwf : ∀ c ∈ cuts, c.startMs < c.endMs)
    (hpw : cuts.Pairwise (fun a b => a.endMs < b.startMs)) :
    ∀ i ∈ subInner s e cuts, ∀ c ∈ cuts,
      i.endMs ≤ c.startMs ∨ c.endMs ≤ i.startMs := by
  induction cuts generalizing s with
  | nil =>
    intro i _ c hc
    exact absurd hc (List.not_mem_nil _)
  | cons c0 rest ih =>
    intro i hi c hc
    rw [List.pairwise_cons] at hpw
    obtain ⟨hhead, htail⟩ := hpw
    have hwf0 : c0.startMs < c0.endMs := hwf c0 (List.mem_cons_self _ _)
    simp only [subInner] at hi
    by_cases h1 : c0.startMs < e
    · rw [if_pos h1] at hi
      rcases List.mem_append.mp hi with hL | hR
      · by_cases h3 : s < c0.startMs
        · rw [if_pos h3, List.mem_singleton] at hL
          subst hL
          rcases List.mem_cons.mp hc with rfl | hc'
          · left
            exact min_le_left _ _
          · left
            have := hhead c hc'
            have := min_le_left c0.startMs e
            dsimp only
            omega
        · rw [if_neg h3] at hL
          exact absurd hL (List.not_mem_nil _)
      · by_cases h2 : e ≤ max s c0.endMs
        · rw [if_pos h2] at hR
          exact absurd hR (List.not_mem_nil _)
        · rw [if_neg h2] at hR
          push_neg at h2
          rcases List.mem_cons.mp hc with rfl | hc'
          · right
            have := (subInner_bounds rest (max s c.endMs) e h2 i hR).1
            have := le_max_right s c.endMs
            omega
          · exact ih (max s c0.endMs) h2
              (fun x hx => hwf x (List.mem_cons_of_mem _ hx)) htail i hR c hc'
    · rw [if_neg h1, if_pos hse, List.mem_singleton] at hi
      subst hi
      push_neg at h1
      rcases List.mem_cons.mp hc with rfl | hc'
      · left
        exact h1
      · left
        have := hhead c hc'
        dsimp only
        omega

theorem subInner_gapLE (cuts : List Interval) (s e : Int) (hse : s < e)
    (hwf : ∀ c ∈ cuts, c.startMs < c.endMs)
    (hpw : cuts.Pairwise (fun a b => a.endMs < b.startMs)) :
    (subInner s e cuts).Pairwise (fun a b => a.endMs ≤ b.startMs) := by
  induction cuts generalizing s with
  | nil =>
    simp only [subInner, if_pos hse]
    exact List.pairwise_singleton _ _
  | cons c0 rest ih =>
    rw [List.pairwise_cons] at hpw
    obtain ⟨hhead, htail⟩ := hpw
    have hwf0 : c0.startMs < c0.endMs := hwf c0 (List.mem_cons_self _ _)
    simp only [subInner]
    by_cases h1 : c0.startMs < e
    · rw [if_pos h1]
      refine List.pairwise_append.mpr ⟨?_, ?_, ?_⟩
      · by_cases h3 : s < c0.startMs
        · rw [if_pos h3]
          exact List.pairwise_singleton _ _
        · rw [if_neg h3]
          exact List.Pairwise.nil
      · by_cases h2 : e ≤ max s c0.endMs
        · rw [if_pos h2]
          exact List.Pairwise.nil
        · rw [if_neg h2]
          push_neg at h2
          exact ih (max s c0.endMs) h2
            (fun x hx => hwf x (List.mem_cons_of_mem _ hx)) htail
      · intro i hiL j hjR
        by_cases h3 : s < c0.startMs
        · rw [if_pos h3, List.mem_singleton] at hiL
          subst hiL
          by_cases h2 : e ≤ max s c0.endMs
          · rw [if_pos h2] at hjR
            exact absurd hjR (List.not_mem_nil _)
          · rw [if_neg h2] at hjR
            push_neg at h2
            have := (subInner_bounds rest (max s c0.endMs) e h2 j hjR).1
            have := min_le_left c0.startMs e
            have := le_max_right s c0.endMs
            dsimp only
            omega
        · rw [if_neg h3] at hiL
          exact absurd hiL (List.not_mem_nil _)
    · rw [if_neg h1, if_pos hse]
      exact List.pairwise_singleton _ _

theorem dropPassed_subset (s : Int) (l : List Interval) :
    ∀ c ∈ dropPassed s l, c ∈ l := by
  induction l with
  | nil => intro c hc; exact absurd hc (List.not_mem_nil _)
  | cons c0 rest ih =>
    intro c hc
    simp only [dropPassed] at hc
    by_cases h : c0.endMs ≤ s
    · rw [if_pos h] at hc
      exact List.mem_cons_of_mem _ (ih c hc)
    · rw [if_neg h] at hc
      exact hc

theorem dropPassed_cover (s : Int) (l : List Interval) :
    ∀ c ∈ l, c ∈ dropPassed s l ∨ c.endMs ≤ s := by
  induction l with
  | nil => intro c hc; exact absurd hc (List.not_mem_nil _)
  | cons c0 rest ih =>
    intro c hc
    simp only [dropPassed]
    by_cases h : c0.endMs ≤ s
    · rw [if_pos h]
      rcases List.mem_cons.mp hc with rfl | hc'
      · exact Or.inr h
      · exact ih c hc'
    · rw [if_neg h]
      exact Or.inl hc

theorem dropPassed_pairwise {R : Interval → Interval → Prop} (s : Int)
    (l : List Interval) (h : l.Pairwise R) : (dropPassed s l).Pairwise R := by
  induction l with
  | nil => exact List.Pairwise.nil
  | cons c0 rest ih =>
    simp only [dropPassed]
    by_cases hc : c0.endMs ≤ s
    · rw [if_pos hc]
      exact ih (List.pairwise_cons.mp h).2
    · rw [if_neg hc]
      exact h

theorem subGo_bounds (segs : List Interval) (cuts : List Interval)
    (hsegwf : ∀ i ∈ segs, i.startMs < i.endMs) :
    ∀ i ∈ subGo segs cuts, ∃ seg ∈ segs,
      seg.startMs ≤ i.startMs ∧ i.startMs < i.endMs ∧ i.endMs ≤ seg.endMs := by
  induction segs generalizing cuts with
  | nil => intro i hi; exact absurd hi (List.not_mem_nil _)
  | cons seg segs ih =>
    intro i hi
    have hse : seg.startMs < seg.endMs := hsegwf seg (List.mem_cons_self _ _)
    simp only [subGo] at hi
    rcases List.mem_append.mp hi with hA | hB
    · exact ⟨seg, List.mem_cons_self _ _,
        subInner_bounds _ seg.startMs seg.endMs hse i hA⟩
    · obtain ⟨seg', hmem, hb⟩ :=
        ih (dropPassed seg.startMs cuts)
          (fun x hx => hsegwf x (List.mem_cons_of_mem _ hx)) i hB
      exact ⟨seg', List.mem_cons_of_mem _ hmem, hb⟩

theorem subGo_sound (segs : List Interval) (cuts : List Interval)
    (hsegwf : ∀ i ∈ segs, i.startMs < i.endMs)
    (hsegpw : segs.Pairwise (fun a b => a.endMs < b.startMs))
    (hcutwf : ∀ c ∈ cuts, c.startMs < c.endMs)
    (hcutpw : cuts.Pairwise (fun a b => a.endMs < b.startMs)) (t : Int) :
    memU t (subGo segs cuts) → memU t segs ∧ ∀ c ∈ cuts, ¬ memI t c := by
  induction segs generalizing cuts with
  | nil =>
    intro h
    exact absurd h (by simp only [subGo, memU]; simp)
  | cons seg segs ih =>
    intro h
    have hse : seg.startMs < seg.endMs := hsegwf seg (List.mem_cons_self _ _)
    rw [List.pairwise_cons] at hsegpw
    obtain ⟨hseghead, hsegtail⟩ := hsegpw
    have hcutwf' : ∀ c ∈ dropPassed seg.startMs cuts, c.startMs < c.endMs :=
      fun c hc => hcutwf c (dropPassed_subset _ _ c hc)
    have hcutpw' := dropPassed_pairwise seg.startMs cuts hcutpw
    simp only [subGo] at h
    rw [memU_append] at h
    rcases h with hA | hB
    · obtain ⟨i, hi, hti⟩ := hA
      obtain ⟨hb1, hb2, hb3⟩ := subInner_bounds _ seg.startMs seg.endMs hse i hi
      obtain ⟨ht1, ht2⟩ := hti
      constructor
      · exact ⟨seg, List.mem_cons_self _ _, by constructor <;> omega⟩
      · intro c hc hmem
        obtain ⟨hc1, hc2⟩ := hmem
        rcases dropPassed_cover seg.startMs cuts c hc with hin | hpast
        · rcases subInner_avoid _ seg.startMs seg.endMs hse hcutwf' hcutpw'
            i hi c hin with hlt | hgt
          · omega
          · omega
        · omega
    · obtain ⟨hU, hC⟩ := ih (dropPassed seg.startMs cuts)
        (fun x hx => hsegwf x (List.mem_cons_of_mem _ hx)) hsegtail
        hcutwf' hcutpw' hB
      constructor
      · obtain ⟨i, hi, hti⟩ := hU
        exact ⟨i, List.mem_cons_of_mem _ hi, hti⟩
      · intro c hc hmem
        rcases dropPassed_cover seg.startMs cuts c hc with hin | hpast
        · exact hC c hin hmem
        · obtain ⟨seg', hs', hts'⟩ := hU
          have := hseghead seg' hs'
          obtain ⟨hm1, hm2⟩ := hts'
          obtain ⟨hq1, hq2⟩ := hmem
          omega

theorem subGo_gapLE (segs : List Interval) (cuts : List Interval)
    (hsegwf : ∀ i ∈ segs, i.startMs < i.endMs)
    (hsegpw : segs.Pairwise (fun a b => a.endMs < b.startMs))
    (hcutwf : ∀ c ∈ cuts, c.startMs < c.endMs)
    (hcutpw : cuts.Pairwise (fun a b => a.endMs < b.startMs)) :
    (subGo segs cuts).Pairwise (fun a b => a.endMs ≤ b.startMs) := by
  induction segs generalizing cuts with
  | nil => exact List.Pairwise.nil
  | cons seg segs ih =>
    have hse : seg.startMs < seg.endMs := hsegwf seg (List.mem_cons_self _ _)
    rw [List.pairwise_cons] at hsegpw
    obtain ⟨hseghead, hsegtail⟩ := hsegpw
    have hcutwf' : ∀ c ∈ dropPassed seg.startMs cuts, c.startMs < c.endMs :=
      fun c hc => hcutwf c (dropPassed_subset _ _ c hc)
    have hcutpw' := dropPassed_pairwise seg.startMs cuts hcutpw
    simp only [subGo]
    refine List.pairwise_append.mpr ⟨?_, ?_, ?_⟩
    · exact subInner_gapLE _ seg.startMs seg.endMs hse hcutwf' hcutpw'
    · exact ih (dropPassed seg.startMs cuts)
        (fun x hx => hsegwf x (List.mem_cons_of_mem _ hx)) hsegtail
        hcutwf' hcutpw'
    · intro i hiA j hjB
      obtain ⟨_, _, hb3⟩ := subInner_bounds _ seg.startMs seg.endMs hse i hiA
      obtain ⟨seg', hs', hj1, _, _⟩ := subGo_bounds segs (dropPassed seg.startMs cuts)
        (fun x hx => hsegwf x (List.mem_cons_of_mem _ hx)) j hjB
      have := hseghead seg' hs'
      omega

/-- C5: for all lists of well-formed intervals `base` and `cut`, every time
point covered by `subtractIntervals base cut` lies in the union of `base`
and in no interval of `cut`, and the result intervals are pairwise
disjoint. -/
theorem subtractIntervals_spec (base cut : List Interval)
    (hb : ∀ i ∈ base, i.startMs < i.endMs)
    (hc : ∀ i ∈ cut, i.startMs < i.endMs) :
    (∀ t : Int, memU t (subtractIntervals base cut) →
        memU t base ∧ ¬ memU t cut)
    ∧ (subtractIntervals base cut).Pairwise
        (fun i j => ∀ t : Int, memI t i → ¬ memI t j) := by
  simp only [subtractIntervals]
  by_cases ha : (mergeIntervals base).length = 0
  · rw [if_pos ha]
    refine ⟨?_, List.Pairwise.nil⟩
    intro t ht
    exact absurd ht (by simp [memU])
  · rw [if_neg ha]
    by_cases hbb : (mergeIntervals cut).length = 0
    · rw [if_pos hbb]
      have hbnil : mergeIntervals cut = [] := List.length_eq_zero.mp hbb
      constructor
      · intro t ht
        refine ⟨(mergeIntervals_memU base hb t).mp ht, ?_⟩
        intro hcut
        have := (mergeIntervals_memU cut hc t).mpr hcut
        rw [hbnil] at this
        exact absurd this (by simp [memU])
      · refine List.Pairwise.imp ?_ (mergeIntervals_gap base)
        intro i j hij t hti htj
        obtain ⟨_, h2⟩ := hti
        obtain ⟨h3, _⟩ := htj
        omega
    · rw [if_neg hbb]
      have hsegwf := mergeIntervals_wf base
      have hsegpw := mergeIntervals_gap base
      have hcutwf := mergeIntervals_wf cut
      have hcutpw := mergeIntervals_gap cut
      constructor
      · intro t ht
        obtain ⟨hU, hC⟩ := subGo_sound _ _ hsegwf hsegpw hcutwf hcutpw t ht
        refine ⟨(mergeIntervals_memU base hb t).mp hU, ?_⟩
        intro hcut
        obtain ⟨c, hcmem, hcmi⟩ := (mergeIntervals_memU cut hc t).mpr hcut
        exact hC c hcmem hcmi
      · refine List.Pairwise.imp ?_
          (subGo_gapLE _ _ hsegwf hsegpw hcutwf hcutpw)
        intro i j hij t hti htj
        obtain ⟨_, h2⟩ := hti
        obtain ⟨h3, _⟩ := htj
        omega

theorem subtractIntervals_spec_witness :
    (∀ i ∈ ([⟨0, 3600000⟩] : List Interval), i.startMs < i.endMs)
    ∧ (∀ i ∈ ([⟨900000, 1800000⟩] : List Interval), i.startMs < i.endMs)
    ∧ ((∀ t : Int,
          memU t (subtractIntervals [⟨0, 3600000⟩] [⟨900000, 1800000⟩]) →
          memU t [⟨0, 3600000⟩] ∧ ¬ memU t [⟨900000, 1800000⟩])
      ∧ (subtractIntervals [⟨0, 3600000⟩] [⟨900000, 1800000⟩]).Pairwise
          (fun i j => ∀ t : Int, memI t i → ¬ memI t j)) :=
  ⟨by decide, by decide,
    subtractIntervals_spec _ _ (by decide) (by decide)⟩

/-- Emitted slot, after the `Slot` type of the free-slots route.  The ISO
strings `startUtc`/`endUtc` are represented by their instants in
milliseconds: for the fixed-width UTC strings produced by `toISOString`,
`localeCompare` order and string-key equality agree with millisecond order
and equality. -/
structure Slot where
  startMs : Int
  endMs : Int
  durationMinutes : Int
  deriving DecidableEq, Repr

/-- Comparator of the final sort in `generateSlots`:
`a.startUtc.localeCompare(b.startUtc) || a.durationMinutes - b.durationMinutes`. -/
def slotLE (a b : Slot) : Prop :=
  a.startMs < b.startMs ∨
    (a.startMs = b.startMs ∧ a.durationMinutes ≤ b.durationMinutes)

instance : DecidableRel slotLE := fun a b => by
  unfold slotLE; infer_instance

instance : IsTrans Slot slotLE :=
  ⟨fun a b c hab hbc => by unfold slotLE at *; omega⟩

instance : IsTotal Slot slotLE :=
  ⟨fun a b => by unfold slotLE; omega⟩

/-- alignUp models the start-grid alignment of `generateSlots`:
`const mod = t % stepMs; if (mod !== 0) t += stepMs - mod;` where JS `%` is
the truncated remainder `Int.tmod`. -/
def alignUp (t : Int) : Int :=
  if Int.tmod t 900000 = 0 then t else t + (900000 - Int.tmod t 900000)

/-- gridStartsN walks `n` candidate starts from `t`, stepping by the
15-minute `stepMs`. -/
def gridStartsN (t : Int) : Nat → List Int
  | 0 => []
  | n + 1 => t :: gridStartsN (t + 900000) n

/-- gridCount is the number of iterations of the `while (t < end)` loop of
`generateSlots`. -/
def gridCount (t e : Int) : Nat := ((e - t + 899999) / 900000).toNat

/-- gridStarts is the list of candidate starts visited by the
`while (t < end)` loop; `gridStarts_eq` below recovers the loop shape. -/
def gridStarts (t e : Int) : List Int := gridStartsN t (gridCount t e)

theorem gridStarts_eq (t e : Int) :
    gridStarts t e = if t < e then t :: gridStarts (t + 900000) e else [] := by
  unfold gridStarts gridCount
  by_cases h : t < e
  · rw [if_pos h]
    have h3 : ((e - t + 899999) / 900000).toNat =
        ((e - (t + 900000) + 899999) / 900000).toNat + 1 := by omega
    rw [h3]
    rfl
  · rw [if_neg h]
    have h0 : ((e - t + 899999) / 900000).toNat = 0 := by omega
    rw [h0]
    rfl

theorem gridStartsN_mem (n : Nat) (t : Int) :
    ∀ x ∈ gridStartsN t n, t ≤ x ∧ ∃ k : Int, 0 ≤ k ∧ x = t + 900000 * k := by
  induction n generalizing t with
  | zero =>
    intro x hx
    exact absurd hx (List.not_mem_nil _)
  | succ n ih =>
    intro x hx
    simp only [gridStartsN] at hx
    rcases List.mem_cons.mp hx with rfl | hx'
    · exact ⟨le_refl _, 0, le_refl _, by ring⟩
    · obtain ⟨h1, k, hk0, hk⟩ := ih (t + 900000) x hx'
      exact ⟨by omega, k + 1, by omega, by omega⟩

theorem gridStarts_mem (t e : Int) :
    ∀ x ∈ gridStarts t e, t ≤ x ∧ ∃ k : Int, 0 ≤ k ∧ x = t + 900000 * k := by
  intro x hx
  unfold gridStarts at hx
  exact gridStartsN_mem _ t x hx

theorem alignUp_spec (s : Int) :
    s ≤ alignUp s ∧ ∃ m : Int, alignUp s = 900000 * m := by
  unfold alignUp
  have hid := Int.tdiv_add_tmod s 900000
  have hlt : Int.tmod s 900000 < 900000 := Int.tmod_lt_of_pos s (by norm_num)
  by_cases h : Int.tmod s 900000 = 0
  · rw [if_pos h]
    exact ⟨le_refl _, s.tdiv 900000, by omega⟩
  · rw [if_neg h]
    exact ⟨by omega, s.tdiv 900000 + 1, by omega⟩

/-- slotsForStart is the inner `for (const d of durSet)` fan-out at one
candidate start: emit `(t, t + d)` whenever it fits inside the clipped
window. -/
def slotsForStart (durSet : List Int) (t e : Int) : List Slot :=
  durSet.filterMap
    (fun d => if t + d * 60000 ≤ e then some ⟨t, t + d * 60000, d⟩ else none)

/-- rawSlots is the emission order of the two nested loops of
`generateSlots` over all intervals, before the `seen` de-duplication: clip
each interval to the query range, skip it when empty, walk the aligned
15-minute grid. -/
def rawSlots (intervals : List Interval) (fromMs toMs : Int)
    (durSet : List Int) : List Slot :=
  intervals.flatMap (fun it =>
    if min it.endMs toMs ≤ max it.startMs fromMs then []
    else
      (gridStarts (alignUp (max it.startMs fromMs)) (min it.endMs toMs)).flatMap
        (fun t => slotsForStart durSet t (min it.endMs toMs)))

/-- dedupFirst models the `seen` set of `generateSlots` keyed by the
`(start, end, duration)` triple: keep the first occurrence of each slot. -/
def dedupFirst (seen : List Slot) : List Slot → List Slot
  | [] => []
  | s :: rest =>
    if s ∈ seen then dedupFirst seen rest
    else s :: dedupFirst (s :: seen) rest

/-- `generateSlots` from the free-slots route: restrict durations to the
supported `[30, 45, 60]`, emit clipped grid-walk slots per interval,
de-duplicate, and sort by start then duration (JS stable comparator sort,
modelled by insertion sort). -/
def generateSlots (intervals : List Interval) (fromMs toMs : Int)
    (durations : List Int) : List Slot :=
  (dedupFirst []
    (rawSlots intervals fromMs toMs
      (durations.filter (fun d => d == 30 || d == 45 || d == 60)))).insertionSort
    slotLE

theorem dedupFirst_subset (l : List Slot) :
    ∀ seen, ∀ s ∈ dedupFirst seen l, s ∈ l := by
  induction l with
  | nil =>
    intro seen s hs
    exact absurd hs (List.not_mem_nil _)
  | cons a rest ih =>
    intro seen s hs
    simp only [dedupFirst] at hs
    by_cases h : a ∈ seen
    · rw [if_pos h] at hs
      exact List.mem_cons_of_mem _ (ih seen s hs)
    · rw [if_neg h] at hs
      rcases List.mem_cons.mp hs with rfl | hs'
      · exact List.mem_cons_self _ _
      · exact List.mem_cons_of_mem _ (ih _ s hs')

theorem dedupFirst_fresh (l : List Slot) :
    ∀ seen, ∀ s ∈ dedupFirst seen l, s ∉ seen := by
  induction l with
  | nil =>
    intro seen s hs
    exact absurd hs (List.not_mem_nil _)
  | cons a rest ih =>
    intro seen s hs
    simp only [dedupFirst] at hs
    by_cases h : a ∈ seen
    · rw [if_pos h] at hs
      exact ih seen s hs
    · rw [if_neg h] at hs
      rcases List.mem_cons.mp hs with rfl | hs'
      · exact h
      · exact fun hmem => ih (a :: seen) s hs' (List.mem_cons_of_mem _ hmem)

theorem dedupFirst_nodup (l : List Slot) :
    ∀ seen, (dedupFirst seen l).Nodup := by
  induction l with
  | nil =>
    intro seen
    exact List.nodup_nil
  | cons a rest ih =>
    intro seen
    simp only [dedupFirst]
    by_cases h : a ∈ seen
    · rw [if_pos h]
      exact ih seen
    · rw [if_neg h]
      refine List.nodup_cons.mpr ⟨?_, ih (a :: seen)⟩
      intro hmem
      exact dedupFirst_fresh rest (a :: seen) a hmem (List.mem_cons_self _ _)

theorem rawSlots_sound (intervals : List Interval) (fromMs toMs : Int)
    (durSet : List Int) :
    ∀ sl ∈ rawSlots intervals fromMs toMs durSet,
      sl.startMs % 900000 = 0
      ∧ sl.durationMinutes ∈ durSet
      ∧ sl.endMs = sl.startMs + sl.durationMinutes * 60000
      ∧ fromMs ≤ sl.startMs ∧ sl.endMs ≤ toMs
      ∧ ∃ it ∈ intervals, it.startMs ≤ sl.startMs ∧ sl.endMs ≤ it.endMs := by
  intro sl hsl
  unfold rawSlots at hsl
  rw [List.mem_flatMap] at hsl
  obtain ⟨it, hit, hmem⟩ := hsl
  by_cases hcl : min it.endMs toMs ≤ max it.startMs fromMs
  · rw [if_pos hcl] at hmem
    exact absurd hmem (List.not_mem_nil _)
  · rw [if_neg hcl] at hmem
    rw [List.mem_flatMap] at hmem
    obtain ⟨t, ht, hslot⟩ := hmem
    unfold slotsForStart at hslot
    rw [List.mem_filterMap] at hslot
    obtain ⟨d, hd, heq⟩ := hslot
    by_cases hfit : t + d * 60000 ≤ min it.endMs toMs
    · rw [if_pos hfit] at heq
      obtain rfl := Option.some.inj heq
      obtain ⟨hta, k, hk0, hkeq⟩ := gridStarts_mem _ _ t ht
      obtain ⟨hs0le, m, hm⟩ := alignUp_spec (max it.startMs fromMs)
      have hmax1 : it.startMs ≤ max it.startMs fromMs := le_max_left _ _
      have hmax2 : fromMs ≤ max it.startMs fromMs := le_max_right _ _
      have hmin1 : min it.endMs toMs ≤ it.endMs := min_le_left _ _
      have hmin2 : min it.endMs toMs ≤ toMs := min_le_right _ _
      refine ⟨?_, hd, rfl, ?_, ?_, ⟨it, hit, ?_, ?_⟩⟩ <;> dsimp only <;> omega
    · rw [if_neg hfit] at heq
      exact absurd heq (by simp)

/-- C6: every slot emitted by the generator starts on the absolute
15-minute UTC grid, ends exactly `duration` minutes later for one of the
requested durations restricted to the supported `{30, 45, 60}`, lies inside
the intersection of one of the supplied (merged availability) intervals
with the query range `[from, to)`, appears only once, and the output is
sorted by start time then duration ascending. -/
theorem generateSlots_spec (intervals : List Interval) (fromMs toMs : Int)
    (durations : List Int) :
    (∀ sl ∈ generateSlots intervals fromMs toMs durations,
        sl.startMs % 900000 = 0
        ∧ sl.durationMinutes ∈ durations
        ∧ (sl.durationMinutes = 30 ∨ sl.durationMinutes = 45 ∨
            sl.durationMinutes = 60)
        ∧ sl.endMs = sl.startMs + sl.durationMinutes * 60000
        ∧ fromMs ≤ sl.startMs ∧ sl.endMs ≤ toMs
        ∧ ∃ it ∈ intervals, it.startMs ≤ sl.startMs ∧ sl.endMs ≤ it.endMs)
    ∧ (generateSlots intervals fromMs toMs durations).Nodup
    ∧ (generateSlots intervals fromMs toMs durations).Pairwise
        (fun a b => a.startMs < b.startMs ∨
          (a.startMs = b.startMs ∧ a.durationMinutes ≤ b.durationMinutes)) := by
  refine ⟨?_, ?_, ?_⟩
  · intro sl hsl
    unfold generateSlots at hsl
    rw [List.mem_insertionSort] at hsl
    have hraw := dedupFirst_subset _ [] sl hsl
    obtain ⟨h1, h2, h3, h4, h5⟩ := rawSlots_sound _ _ _ _ sl hraw
    rw [List.mem_filter] at h2
    obtain ⟨h2a, h2b⟩ := h2
    refine ⟨h1, h2a, ?_, h3, h4, h5⟩
    simp only [Bool.or_eq_true, beq_iff_eq] at h2b
    tauto
  · unfold generateSlots
    exact (List.perm_insertionSort slotLE _).nodup_iff.mpr (dedupFirst_nodup _ [])
  · unfold generateSlots
    refine (List.sorted_insertionSort slotLE _).imp ?_
    intro a b h
    unfold slotLE at h
    exact h

/-- Offer row from the `lessonOffers` table, with the columns the scheduling
core reads. -/
structure Offer where
  teacherId : Int
  durationMinutes : Int
  priceCents : Int
  currency : String
  isActive : Int
  deriving DecidableEq, Repr

/-- freeMergeIntervals is the private `mergeIntervals` of the free-slots
route: the input is pre-filtered to well-formed intervals, sorted (stably)
by start only, and merged with the same accumulator loop. -/
def freeMergeIntervals (rows : List Interval) : List Interval :=
  match rows.insertionSort (fun a b => a.startMs ≤ b.startMs) with
  | [] => []
  | c :: cs => mergeLoop c cs

/-- freeSlotsCore is the pure tail of the free-slots GET handler: take the
teacher rows overlapping the range, compute the active-offer durations with
the `offers.length ? offers.map(...) : [30, 45, 60]` fallback, filter
malformed intervals, merge, and generate slots. -/
def freeSlotsCore (rows : List Interval) (offers : List Offer)
    (fromMs toMs : Int) : List Slot :=
  generateSlots (freeMergeIntervals (rows.filter wfB)) fromMs toMs
    (if (offers.filter (fun o => o.isActive == 1)).length = 0 then [30, 45, 60]
     else (offers.filter (fun o => o.isActive == 1)).map
       (fun o => o.durationMinutes))

/-- C3 counterexample: a teacher with one availability interval and no
active lesson offers still gets a non-empty free-slot list, because the
route substitutes the default durations `[30, 45, 60]` when the active
offer list is empty, instead of returning an empty result. -/
theorem freeSlotsCore_noOffers_counterexample :
    freeSlotsCore [⟨0, 1800000⟩] [] 0 1800000 = [⟨0, 1800000, 30⟩]
    ∧ freeSlotsCore [⟨0, 1800000⟩] [] 0 1800000 ≠ [] := by
  constructor
  · decide
  · decide

/-- C3 amended: when the teacher has no active lesson offers, the generator
does not return an empty list; it falls back to the default duration set
`{30, 45, 60}`, behaving exactly as if the teacher had active offers for
all three durations. -/
theorem freeSlotsCore_noActiveOffers_default (rows : List Interval)
    (offers : List Offer) (fromMs toMs : Int)
    (h : (offers.filter (fun o => o.isActive == 1)).length = 0) :
    freeSlotsCore rows offers fromMs toMs =
      freeSlotsCore rows
        [⟨1, 30, 1000, "EUR", 1⟩, ⟨1, 45, 1500, "EUR", 1⟩,
          ⟨1, 60, 2000, "EUR", 1⟩] fromMs toMs := by
  unfold freeSlotsCore
  rw [if_pos h]
  rfl

theorem freeSlotsCore_noActiveOffers_default_witness :
    (([] : List Offer).filter (fun o => o.isActive == 1)).length = 0
    ∧ freeSlotsCore [⟨0, 1800000⟩] [] 0 1800000 =
        freeSlotsCore [⟨0, 1800000⟩]
          [⟨1, 30, 1000, "EUR", 1⟩, ⟨1, 45, 1500, "EUR", 1⟩,
            ⟨1, 60, 2000, "EUR", 1⟩] 0 1800000 :=
  ⟨by decide, freeSlotsCore_noActiveOffers_default _ _ _ _ (by decide)⟩

/-- Booking status machine of the `bookings` table. -/
inductive BookingStatus
  | pending
  | paid
  | canceled
  | refunded
  deriving DecidableEq, Repr

/-- Atomic availability row of the `teacherAvailability` table. -/
structure AvailRow where
  id : Int
  teacherId : Int
  startMs : Int
  endMs : Int
  deriving DecidableEq, Repr

/-- Booking row of the `bookings` table, with the columns the scheduling
core reads or writes. -/
structure Booking where
  id : Int
  teacherId : Int
  studentId : Int
  startMs : Int
  endMs : Int
  durationMinutes : Int
  priceCents : Int
  currency : String
  status : BookingStatus
  stripeCheckoutSessionId : Option String
  stripePaymentIntentId : Option String
  deriving DecidableEq, Repr

/-- The relational state the scheduling core touches.  Fresh row ids are
modelled by the two counters. -/
structure DBState where
  avail : List AvailRow
  offers : List Offer
  bookings : List Booking
  nextBookingId : Int
  nextAvailId : Int
  deriving DecidableEq, Repr

/-- requiredStartsFor: step 2 of the checkout transaction.  One atomic
block start for 30 minutes, two consecutive ones for 60. -/
def requiredStartsFor (startMs dur : Int) : List Int :=
  if dur = 60 then [startMs, startMs + 1800000] else [startMs]

/-- findOffer: the `lessonOffers` lookup of checkout step 1
(`teacherId`, `durationMinutes`, `isActive = 1`, `limit 1`). -/
def findOffer (s : DBState) (tid dur : Int) : Option Offer :=
  s.offers.find?
    (fun o => o.teacherId == tid && o.durationMinutes == dur && o.isActive == 1)

/-- fetchAvailRows: the availability fetch of checkout step 3
(`teacherId` equal and `startUtc` in the required list). -/
def fetchAvailRows (s : DBState) (tid : Int) (starts : List Int) :
    List AvailRow :=
  s.avail.filter (fun r => r.teacherId == tid && starts.contains r.startMs)

/-- Checkout request body after validation of the raw fields. -/
structure CheckoutReq where
  teacherId : Int
  startMs : Int
  durationMinutes : Int
  deriving DecidableEq, Repr

/-- markPaid: `update bookings set status = paid where id = bid`. -/
def markPaid (bs : List Booking) (bid : Int) : List Booking :=
  bs.map (fun b =>
    if b.id = bid then { b with status := BookingStatus.paid } else b)

/-- setSession: `update bookings set stripeCheckoutSessionId where id`. -/
def setSession (bs : List Booking) (bid : Int) (sid : String) : List Booking :=
  bs.map (fun b =>
    if b.id = bid then { b with stripeCheckoutSessionId := some sid } else b)

/-- checkoutTx models the body of the checkout transaction (steps 1 to 6 of
the reservation protocol): offer lookup, atomic row fetch with count and
30-minute width checks, pending booking insert, consumed row delete (the
lock), then either the `STRIPE_DISABLED` immediate-paid path or the
provider checkout; `stripeSession` is the provider outcome (`none` means
the provider call throws, aborting the transaction). -/
def checkoutTx (stripeDisabled : Bool) (stripeSession : Option String)
    (uid : Int) (s : DBState) (req : CheckoutReq) :
    Except String (Int × DBState) :=
  match findOffer s req.teacherId req.durationMinutes with
  | none => Except.error "No price for this duration"
  | some offer =>
    let requiredStarts := requiredStartsFor req.startMs req.durationMinutes
    let rows := fetchAvailRows s req.teacherId requiredStarts
    if rows.length ≠ requiredStarts.length then
      Except.error "Slot not available"
    else if (rows.all (fun r => r.endMs - r.startMs == 1800000)) = false then
      Except.error "Availability row is not 30-min atomic"
    else
      let booking : Booking :=
        ⟨s.nextBookingId, req.teacherId, uid, req.startMs,
          req.startMs + req.durationMinutes * 60000, req.durationMinutes,
          offer.priceCents, offer.currency, BookingStatus.pending, none, none⟩
      let deletedIds := rows.map (fun r => r.id)
      let s1 : DBState :=
        ⟨s.avail.filter (fun r => !(deletedIds.contains r.id)), s.offers,
          s.bookings ++ [booking], s.nextBookingId + 1, s.nextAvailId⟩
      if stripeDisabled then
        Except.ok (booking.id,
          { s1 with bookings := markPaid s1.bookings booking.id })
      else
        match stripeSession with
        | some sid =>
          Except.ok (booking.id,
            { s1 with bookings := setSession s1.bookings booking.id sid })
        | none => Except.error "Checkout failed"

deriving instance DecidableEq for Except

/-- checkout models the checkout POST handler: the 30/60 duration
validation happens before the transaction; a transaction body that throws
rolls the state back entirely. -/
def checkout (stripeDisabled : Bool) (stripeSession : Option String)
    (uid : Int) (s : DBState) (req : CheckoutReq) :
    Except String Int × DBState :=
  if req.durationMinutes = 30 ∨ req.durationMinutes = 60 then
    match checkoutTx stripeDisabled stripeSession uid s req with
    | Except.ok (bid, s') => (Except.ok bid, s')
    | Except.error e => (Except.error e, s)
  else
    (Except.error "Only 30/60 supported right now (45 requires 15-min grid).",
      s)

/-- Outcome of the cancellation handler. -/
inductive CancelResult
  | notFound
  | cannotCancel (status : BookingStatus)
  | ok (restored : Nat)
  deriving DecidableEq, Repr

/-- buildAtomicStarts from the cancel route: the 30-minute block starts a
booking of `[startUtc, endUtc)` occupied.  A non-positive span yields `[]`;
the source computes the span in (possibly fractional) minutes and requires
`diff % 30 === 0`, which in milliseconds is divisibility by `1800000`. -/
def buildAtomicStarts (startMs endMs : Int) : List Int :=
  if endMs ≤ startMs then []
  else if (endMs - startMs) % 1800000 ≠ 0 then []
  else
    (List.range ((endMs - startMs) / 1800000).toNat).map
      (fun i : Nat => startMs + 1800000 * (i : Int))

/-- mkRestoreRows: the insert values of the cancellation restore, one
30-minute row per missing start, with fresh ids. -/
def mkRestoreRows (tid : Int) (nid : Int) : List Int → List AvailRow
  | [] => []
  | t :: rest => ⟨nid, tid, t, t + 1800000⟩ :: mkRestoreRows tid (nid + 1) rest

/-- cancelFound is the body of the cancellation transaction once the
booking row of the requesting student was found: paid/refunded rejection,
status transition (skipped when already canceled), and restore of the
missing atomic rows computed from the booking span. -/
def cancelFound (s : DBState) (b : Booking) : CancelResult × DBState :=
  if b.status = BookingStatus.paid ∨ b.status = BookingStatus.refunded then
    (CancelResult.cannotCancel b.status, s)
  else
    let bookings' :=
      if b.status = BookingStatus.canceled then s.bookings
      else
        s.bookings.map (fun x =>
          if x.id = b.id then { x with status := BookingStatus.canceled }
          else x)
    let requiredStarts := buildAtomicStarts b.startMs b.endMs
    if requiredStarts.length = 0 then
      (CancelResult.ok 0, { s with bookings := bookings' })
    else
      let existingStarts :=
        (s.avail.filter (fun r =>
          r.teacherId == b.teacherId &&
            requiredStarts.contains r.startMs)).map (fun r => r.startMs)
      let startsToInsert :=
        requiredStarts.filter (fun t => !(existingStarts.contains t))
      let rows := mkRestoreRows b.teacherId s.nextAvailId startsToInsert
      if rows.length = 0 then
        (CancelResult.ok 0, { s with bookings := bookings' })
      else
        (CancelResult.ok rows.length,
          ⟨s.avail ++ rows, s.offers, bookings', s.nextBookingId,
            s.nextAvailId + rows.length⟩)

/-- cancel models the cancellation POST handler transaction: look up the
booking by id and owning student (`limit 1`), then run the body. -/
def cancel (uid : Int) (bookingId : Int) (s : DBState) :
    CancelResult × DBState :=
  match s.bookings.find? (fun b => b.id == bookingId && b.studentId == uid) with
  | none => (CancelResult.notFound, s)
  | some b => cancelFound s b

/-- roundDownToGrid from the availability route: zero the seconds and
milliseconds and round the minute down to the 30-minute grid, which on UTC
instants is flooring to a multiple of `1800000` (euclidean remainder). -/
def roundDownToGrid (ms : Int) : Int := ms - ms % 1800000

/-- floorMinute: `end.set({ second: 0, millisecond: 0 })`. -/
def floorMinute (ms : Int) : Int := ms - ms % 60000

/-- gridSlotsN walks `n` consecutive 30-minute slots from `t`. -/
def gridSlotsN (t : Int) : Nat → List (Int × Int)
  | 0 => []
  | n + 1 => (t, t + 1800000) :: gridSlotsN (t + 1800000) n

/-- splitCount is the number of iterations of the
`while (t + 30min <= end)` loop of `splitIntoGridSlots`. -/
def splitCount (t e : Int) : Nat := ((e - t) / 1800000).toNat

/-- `splitIntoGridSlots` from the availability route: reject empty or
reversed selections, round the start down to the grid, floor the end to the
minute, then cut consecutive 30-minute slots while they fit.
`splitIntoGridSlots_loop` below recovers the loop shape. -/
def splitIntoGridSlots (startMs endMs : Int) : List (Int × Int) :=
  if endMs ≤ startMs then []
  else
    gridSlotsN (roundDownToGrid startMs)
      (splitCount (roundDownToGrid startMs) (floorMinute endMs))

theorem gridSlotsN_loop (t e : Int) :
    gridSlotsN t (splitCount t e) =
      if t + 1800000 ≤ e then
        (t, t + 1800000) :: gridSlotsN (t + 1800000) (splitCount (t + 1800000) e)
      else [] := by
  unfold splitCount
  by_cases h : t + 1800000 ≤ e
  · rw [if_pos h]
    have h3 : ((e - t) / 1800000).toNat =
        ((e - (t + 1800000)) / 1800000).toNat + 1 := by omega
    rw [h3]
    rfl
  · rw [if_neg h]
    have h0 : ((e - t) / 1800000).toNat = 0 := by omega
    rw [h0]
    rfl

/-- Outcome of the availability POST handler. -/
inductive PostResult
  | badRequest (msg : String)
  | ok (inserted : Nat)
  deriving DecidableEq, Repr

/-- insertSlots models the insert loop of the availability POST
transaction: for each 30-minute slot, insert a row only when no identical
`(teacherId, startUtc, endUtc)` row exists. -/
def insertSlots (tid : Int) : DBState → List (Int × Int) → DBState
  | s, [] => s
  | s, sl :: rest =>
    if s.avail.any (fun r =>
        r.teacherId == tid && r.startMs == sl.1 && r.endMs == sl.2) then
      insertSlots tid s rest
    else
      insertSlots tid
        ⟨s.avail ++ [⟨s.nextAvailId, tid, sl.1, sl.2⟩], s.offers, s.bookings,
          s.nextBookingId, s.nextAvailId + 1⟩ rest

/-- availabilityPost models the manual availability POST handler: split the
submitted range into grid slots, reject an empty selection, then insert the
missing rows idempotently. -/
def availabilityPost (tid : Int) (startMs endMs : Int) (s : DBState) :
    PostResult × DBState :=
  let slots := splitIntoGridSlots startMs endMs
  if slots.length = 0 then (PostResult.badRequest "Empty selection", s)
  else (PostResult.ok slots.length, insertSlots tid s slots)

/-- Row of the `availabilityOverrides` table used by the rule-expansion
path. -/
structure OverrideRow where
  teacherId : Int
  kind : String
  startMs : Int
  endMs : Int
  deriving DecidableEq, Repr

/-- overrideTouches is the `whereTouching` condition of
`insertMergedAvailabilityBlock`: same teacher, kind `add`, and the stored
range touches or overlaps `[startMs, endMs]`. -/
def overrideTouches (tid st en : Int) (o : OverrideRow) : Bool :=
  o.teacherId == tid && o.kind == "add" && o.startMs ≤ en && st ≤ o.endMs

/-- `insertMergedAvailabilityBlock` from the availability-rules route:
collect the touching `add` blocks, widen the new range to cover them,
delete them, and insert one merged block.  Note it stores one block of the
merged width, not 30-minute atomic rows. -/
def insertMergedAvailabilityBlock (tid : Int) (startMs endMs : Int)
    (l : List OverrideRow) : List OverrideRow :=
  let touching := l.filter (overrideTouches tid startMs endMs)
  let mergedStart :=
    touching.foldl (fun m o => if o.startMs < m then o.startMs else m) startMs
  let mergedEnd :=
    touching.foldl (fun m o => if m < o.endMs then o.endMs else m) endMs
  let remaining :=
    if touching.length = 0 then l
    else l.filter (fun o => !(overrideTouches tid startMs endMs o))
  remaining ++ [⟨tid, "add", mergedStart, mergedEnd⟩]

theorem checkout_of_tx_error (stripeDisabled : Bool)
    (stripeSession : Option String) (uid : Int) (s : DBState)
    (req : CheckoutReq) (e : String)
    (hdur : req.durationMinutes = 30 ∨ req.durationMinutes = 60)
    (h : checkoutTx stripeDisabled stripeSession uid s req = Except.error e) :
    checkout stripeDisabled stripeSession uid s req = (Except.error e, s) := by
  unfold checkout
  rw [if_pos hdur, h]

/-- C2: for a supported duration, when the atomic rows matching the
required start instants are fewer than required, or any matching row is
not exactly 30 minutes long, checkout fails with an error and the state is
unchanged: no booking row is created and no availability row is deleted. -/
theorem checkout_unavailable_fails (stripeDisabled : Bool)
    (stripeSession : Option String) (uid : Int) (s : DBState)
    (req : CheckoutReq)
    (hdur : req.durationMinutes = 30 ∨ req.durationMinutes = 60)
    (hrows :
      (fetchAvailRows s req.teacherId
          (requiredStartsFor req.startMs req.durationMinutes)).length <
        (requiredStartsFor req.startMs req.durationMinutes).length
      ∨ ∃ r ∈ fetchAvailRows s req.teacherId
            (requiredStartsFor req.startMs req.durationMinutes),
          r.endMs - r.startMs ≠ 1800000) :
    ∃ e, checkout stripeDisabled stripeSession uid s req =
      (Except.error e, s) := by
  rcases hfo : findOffer s req.teacherId req.durationMinutes with _ | offer
  · refine ⟨"No price for this duration",
      checkout_of_tx_error _ _ _ _ _ _ hdur ?_⟩
    simp only [checkoutTx, hfo]
  · by_cases hlen :
        (fetchAvailRows s req.teacherId
            (requiredStartsFor req.startMs req.durationMinutes)).length ≠
          (requiredStartsFor req.startMs req.durationMinutes).length
    · refine ⟨"Slot not available",
        checkout_of_tx_error _ _ _ _ _ _ hdur ?_⟩
      simp only [checkoutTx, hfo, if_pos hlen]
    · have hbad : ∃ r ∈ fetchAvailRows s req.teacherId
          (requiredStartsFor req.startMs req.durationMinutes),
          r.endMs - r.startMs ≠ 1800000 := by
        rcases hrows with h | h
        · omega
        · exact h
      have hall : ((fetchAvailRows s req.teacherId
          (requiredStartsFor req.startMs req.durationMinutes)).all
            (fun r => r.endMs - r.startMs == 1800000)) = false := by
        obtain ⟨r, hr, hw⟩ := hbad
        by_cases hcontra : ((fetchAvailRows s req.teacherId
            (requiredStartsFor req.startMs req.durationMinutes)).all
              (fun r => r.endMs - r.startMs == 1800000)) = true
        · have := List.all_eq_true.mp hcontra r hr
          simp only [beq_iff_eq] at this
          omega
        · exact Bool.not_eq_true _ ▸ Bool.eq_false_iff.mpr hcontra
      refine ⟨"Availability row is not 30-min atomic",
        checkout_of_tx_error _ _ _ _ _ _ hdur ?_⟩
      simp only [checkoutTx, hfo, if_neg hlen, hall]
      simp

theorem checkout_unavailable_fails_witness :
    ((30 : Int) = 30 ∨ (30 : Int) = 60)
    ∧ ((fetchAvailRows ⟨[], [], [], 1, 1⟩ 1 (requiredStartsFor 0 30)).length <
          (requiredStartsFor 0 30).length
      ∨ ∃ r ∈ fetchAvailRows ⟨[], [], [], 1, 1⟩ 1 (requiredStartsFor 0 30),
          r.endMs - r.startMs ≠ 1800000)
    ∧ ∃ e, checkout true none 9 ⟨[], [], [], 1, 1⟩ ⟨1, 0, 30⟩ =
        (Except.error e, ⟨[], [], [], 1, 1⟩) :=
  ⟨Or.inl rfl, Or.inl (by decide),
    checkout_unavailable_fails true none 9 ⟨[], [], [], 1, 1⟩ ⟨1, 0, 30⟩
      (Or.inl rfl) (Or.inl (by decide))⟩

theorem gridSlotsN_width (n : Nat) (t : Int) :
    ∀ p ∈ gridSlotsN t n,
      p.2 = p.1 + 1800000 ∧ ∃ k : Int, 0 ≤ k ∧ p.1 = t + 1800000 * k := by
  induction n generalizing t with
  | zero =>
    intro p hp
    exact absurd hp (List.not_mem_nil _)
  | succ n ih =>
    intro p hp
    simp only [gridSlotsN] at hp
    rcases List.mem_cons.mp hp with rfl | hp'
    · exact ⟨rfl, 0, le_refl _, by ring⟩
    · obtain ⟨h1, k, hk0, hk⟩ := ih (t + 1800000) p hp'
      exact ⟨h1, k + 1, by omega, by omega⟩

theorem gridSlotsN_head (n : Nat) (t : Int) :
    ∀ p, (gridSlotsN t n).head? = some p → p.1 = t := by
  cases n with
  | zero =>
    intro p hp
    exact absurd hp (by simp [gridSlotsN])
  | succ n =>
    intro p hp
    simp only [gridSlotsN, List.head?_cons, Option.some.injEq] at hp
    rw [← hp]

theorem gridSlotsN_chain (n : Nat) (t : Int) :
    (gridSlotsN t n).Chain' (fun a b => b.1 = a.2) := by
  induction n generalizing t with
  | zero => exact List.chain'_nil
  | succ n ih =>
    simp only [gridSlotsN]
    rw [List.chain'_cons']
    refine ⟨?_, ih (t + 1800000)⟩
    intro b hb
    have := gridSlotsN_head n (t + 1800000) b hb
    simp only [this]

theorem insertSlots_avail_mono (tid : Int) (slots : List (Int × Int)) :
    ∀ s : DBState, ∀ r ∈ s.avail, r ∈ (insertSlots tid s slots).avail := by
  induction slots with
  | nil =>
    intro s r hr
    exact hr
  | cons sl rest ih =>
    intro s r hr
    simp only [insertSlots]
    by_cases h : (s.avail.any fun r =>
        r.teacherId == tid && r.startMs == sl.1 && r.endMs == sl.2) = true
    · rw [if_pos h]
      exact ih s r hr
    · rw [if_neg h]
      exact ih _ r (List.mem_append.mpr (Or.inl hr))

theorem insertSlots_present (tid : Int) (slots : List (Int × Int)) :
    ∀ s : DBState, ∀ sl ∈ slots, ∃ r ∈ (insertSlots tid s slots).avail,
      r.teacherId = tid ∧ r.startMs = sl.1 ∧ r.endMs = sl.2 := by
  induction slots with
  | nil =>
    intro s sl hsl
    exact absurd hsl (List.not_mem_nil _)
  | cons sl0 rest ih =>
    intro s sl hsl
    simp only [insertSlots]
    by_cases h : (s.avail.any fun r =>
        r.teacherId == tid && r.startMs == sl0.1 && r.endMs == sl0.2) = true
    · rw [if_pos h]
      rcases List.mem_cons.mp hsl with rfl | hsl'
      · obtain ⟨r, hr, hbeq⟩ := List.any_eq_true.mp h
        simp only [Bool.and_eq_true, beq_iff_eq] at hbeq
        exact ⟨r, insertSlots_avail_mono tid rest s r hr,
          hbeq.1.1, hbeq.1.2, hbeq.2⟩
      · exact ih s sl hsl'
    · rw [if_neg h]
      rcases List.mem_cons.mp hsl with rfl | hsl'
      · refine ⟨⟨s.nextAvailId, tid, sl.1, sl.2⟩, ?_, rfl, rfl, rfl⟩
        exact insertSlots_avail_mono tid rest _ _
          (List.mem_append.mpr (Or.inr (List.mem_singleton.mpr rfl)))
      · exact ih _ sl hsl'

theorem insertSlots_skip (tid : Int) (slots : List (Int × Int)) :
    ∀ s : DBState,
      (∀ sl ∈ slots, ∃ r ∈ s.avail,
        r.teacherId = tid ∧ r.startMs = sl.1 ∧ r.endMs = sl.2) →
      insertSlots tid s slots = s := by
  induction slots with
  | nil =>
    intro s _
    rfl
  | cons sl0 rest ih =>
    intro s h
    obtain ⟨r, hr, h1, h2, h3⟩ := h sl0 (List.mem_cons_self _ _)
    have hany : (s.avail.any fun r =>
        r.teacherId == tid && r.startMs == sl0.1 && r.endMs == sl0.2) = true := by
      refine List.any_eq_true.mpr ⟨r, hr, ?_⟩
      simp only [Bool.and_eq_true, beq_iff_eq]
      exact ⟨⟨h1, h2⟩, h3⟩
    simp only [insertSlots, if_pos hany]
    exact ih s (fun sl hsl => h sl (List.mem_cons_of_mem _ hsl))

/-- C9 amended: a range submitted by direct manual availability entry is
split into consecutive non-overlapping 30-minute rows aligned to the fixed
UTC grid, the first row starting at the input start rounded down to the
grid, and re-submitting the same range changes nothing (idempotent
insert).  The availability-rule expansion path, by contrast, stores one
merged block (see the counterexample theorem), not atomic rows. -/
theorem splitIntoGridSlots_spec (st en tid : Int) (s : DBState) :
    (∀ p ∈ splitIntoGridSlots st en,
        p.2 = p.1 + 1800000 ∧ p.1 % 1800000 = 0)
    ∧ (splitIntoGridSlots st en).Chain' (fun a b => b.1 = a.2)
    ∧ (∀ p, (splitIntoGridSlots st en).head? = some p →
        p.1 = roundDownToGrid st)
    ∧ (availabilityPost tid st en ((availabilityPost tid st en s).2)).2 =
        (availabilityPost tid st en s).2 := by
  refine ⟨?_, ?_, ?_, ?_⟩
  · intro p hp
    unfold splitIntoGridSlots at hp
    by_cases h : en ≤ st
    · rw [if_pos h] at hp
      exact absurd hp (List.not_mem_nil _)
    · rw [if_neg h] at hp
      obtain ⟨h1, k, hk0, hk⟩ := gridSlotsN_width _ _ p hp
      refine ⟨h1, ?_⟩
      unfold roundDownToGrid at hk
      omega
  · unfold splitIntoGridSlots
    by_cases h : en ≤ st
    · rw [if_pos h]
      exact List.chain'_nil
    · rw [if_neg h]
      exact gridSlotsN_chain _ _
  · intro p hp
    unfold splitIntoGridSlots at hp
    by_cases h : en ≤ st
    · rw [if_pos h] at hp
      exact absurd hp (by simp)
    · rw [if_neg h] at hp
      exact gridSlotsN_head _ _ p hp
  · by_cases hempty : (splitIntoGridSlots st en).length = 0
    · have h2 : ∀ u : DBState, (availabilityPost tid st en u).2 = u := by
        intro u
        simp only [availabilityPost]
        rw [if_pos hempty]
      rw [h2, h2]
    · have h2 : ∀ u : DBState, (availabilityPost tid st en u).2 =
          insertSlots tid u (splitIntoGridSlots st en) := by
        intro u
        simp only [availabilityPost]
        rw [if_neg hempty]
      rw [h2, h2]
      exact insertSlots_skip tid (splitIntoGridSlots st en) _
        (fun sl hsl => insertSlots_present tid (splitIntoGridSlots st en) s sl hsl)

theorem splitIntoGridSlots_spec_witness :
    (∀ p ∈ splitIntoGridSlots 600000 3600000,
        p.2 = p.1 + 1800000 ∧ p.1 % 1800000 = 0)
    ∧ (splitIntoGridSlots 600000 3600000).Chain' (fun a b => b.1 = a.2)
    ∧ (∀ p, (splitIntoGridSlots 600000 3600000).head? = some p →
        p.1 = roundDownToGrid 600000)
    ∧ (availabilityPost 1 600000 3600000
          ((availabilityPost 1 600000 3600000 ⟨[], [], [], 1, 1⟩).2)).2 =
        (availabilityPost 1 600000 3600000 ⟨[], [], [], 1, 1⟩).2 :=
  splitIntoGridSlots_spec 600000 3600000 1 ⟨[], [], [], 1, 1⟩

/-- C9 counterexample: the availability-rule expansion path stores the
expanded day window as a single merged block in the overrides table -- here
a 60-minute row -- not as consecutive 30-minute atomic rows. -/
theorem insertMergedAvailabilityBlock_not_atomic :
    insertMergedAvailabilityBlock 1 0 3600000 [] = [⟨1, "add", 0, 3600000⟩]
    ∧ ¬ (∀ o ∈ insertMergedAvailabilityBlock 1 0 3600000 [],
          o.endMs - o.startMs = 1800000) := by
  constructor
  · decide
  · decide

/-- Uniqueness invariant of the availability store: no two rows of the same
teacher share a start instant. -/
def startsUnique (l : List AvailRow) : Prop :=
  l.Pairwise (fun a b => a.teacherId = b.teacherId → a.startMs ≠ b.startMs)

instance (l : List AvailRow) : Decidable (startsUnique l) := by
  unfold startsUnique; infer_instance

/-- Width invariant of the availability store: every row is exactly one
30-minute grid unit. -/
def allAtomic (l : List AvailRow) : Prop :=
  ∀ r ∈ l, r.endMs = r.startMs + 1800000

instance (l : List AvailRow) : Decidable (allAtomic l) := by
  unfold allAtomic; infer_instance

theorem splitIntoGridSlots_width (st en : Int) :
    ∀ p ∈ splitIntoGridSlots st en, p.2 = p.1 + 1800000 := by
  intro p hp
  unfold splitIntoGridSlots at hp
  by_cases h : en ≤ st
  · rw [if_pos h] at hp
    exact absurd hp (List.not_mem_nil _)
  · rw [if_neg h] at hp
    exact (gridSlotsN_width _ _ p hp).1

theorem mkRestoreRows_mem (tid : Int) (starts : List Int) :
    ∀ nid : Int, ∀ row ∈ mkRestoreRows tid nid starts,
      row.teacherId = tid ∧ row.startMs ∈ starts
        ∧ row.endMs = row.startMs + 1800000 := by
  induction starts with
  | nil =>
    intro nid row hrow
    exact absurd hrow (List.not_mem_nil _)
  | cons t rest ih =>
    intro nid row hrow
    simp only [mkRestoreRows] at hrow
    rcases List.mem_cons.mp hrow with rfl | h'
    · exact ⟨rfl, List.mem_cons_self _ _, rfl⟩
    · obtain ⟨ha, hb, hc⟩ := ih (nid + 1) row h'
      exact ⟨ha, List.mem_cons_of_mem _ hb, hc⟩

theorem mkRestoreRows_pairwise (tid : Int) (starts : List Int)
    (h : starts.Pairwise (fun a b => a ≠ b)) :
    ∀ nid : Int, (mkRestoreRows tid nid starts).Pairwise
      (fun a b => a.startMs ≠ b.startMs) := by
  induction starts with
  | nil =>
    intro nid
    exact List.Pairwise.nil
  | cons t rest ih =>
    rw [List.pairwise_cons] at h
    obtain ⟨hhead, htail⟩ := h
    intro nid
    simp only [mkRestoreRows]
    rw [List.pairwise_cons]
    refine ⟨?_, ih htail (nid + 1)⟩
    intro row hrow
    have hmem := (mkRestoreRows_mem tid rest (nid + 1) row hrow).2.1
    intro heq
    exact hhead row.startMs hmem heq

theorem buildAtomicStarts_ne (st en : Int) :
    (buildAtomicStarts st en).Pairwise (fun a b => a ≠ b) := by
  unfold buildAtomicStarts
  by_cases h1 : en ≤ st
  · rw [if_pos h1]
    exact List.Pairwise.nil
  · rw [if_neg h1]
    by_cases h2 : (en - st) % 1800000 ≠ 0
    · rw [if_pos h2]
      exact List.Pairwise.nil
    · rw [if_neg h2]
      refine List.Pairwise.map (fun i : Nat => st + 1800000 * (i : Int)) ?_
        (List.pairwise_lt_range _)
      intro a b hab
      intro hEq
      simp only at hEq
      omega

theorem insertSlots_invariant (tid : Int) (slots : List (Int × Int))
    (hw : ∀ p ∈ slots, p.2 = p.1 + 1800000) :
    ∀ s : DBState,
      startsUnique s.avail → allAtomic s.avail →
      startsUnique (insertSlots tid s slots).avail
        ∧ allAtomic (insertSlots tid s slots).avail := by
  induction slots with
  | nil =>
    intro s h1 h2
    exact ⟨h1, h2⟩
  | cons sl rest ih =>
    intro s h1 h2
    have hw' : ∀ p ∈ rest, p.2 = p.1 + 1800000 :=
      fun p hp => hw p (List.mem_cons_of_mem _ hp)
    have hwsl : sl.2 = sl.1 + 1800000 := hw sl (List.mem_cons_self _ _)
    simp only [insertSlots]
    by_cases h : (s.avail.any fun r =>
        r.teacherId == tid && r.startMs == sl.1 && r.endMs == sl.2) = true
    · rw [if_pos h]
      exact ih hw' s h1 h2
    · rw [if_neg h]
      refine ih hw' _ ?_ ?_
      · unfold startsUnique at h1 ⊢
        refine List.pairwise_append.mpr ⟨h1, List.pairwise_singleton _ _, ?_⟩
        intro a ha row hrow
        rw [List.mem_singleton] at hrow
        subst hrow
        intro hteach heq
        apply h
        refine List.any_eq_true.mpr ⟨a, ha, ?_⟩
        simp only [Bool.and_eq_true, beq_iff_eq]
        have hae := h2 a ha
        refine ⟨⟨hteach, heq⟩, ?_⟩
        dsimp only at heq ⊢
        omega
      · unfold allAtomic at h2 ⊢
        intro r hr
        rcases List.mem_append.mp hr with hr' | hr'
        · exact h2 r hr'
        · rw [List.mem_singleton] at hr'
          subst hr'
          dsimp only
          omega

/-- C10 amended: starting from a state where no two availability rows of
one teacher share a start instant and every row is exactly 30 minutes
wide, both the manual availability POST and the cancellation restore
preserve the conjunction of the two invariants.  Start-uniqueness alone is
not preserved by the manual POST (see the counterexample theorem), because
its duplicate check compares the full `(teacherId, startUtc, endUtc)`
triple. -/
theorem availability_invariant_preserved (s : DBState)
    (tid st en uid bid : Int)
    (h : startsUnique s.avail ∧ allAtomic s.avail) :
    (startsUnique (availabilityPost tid st en s).2.avail
      ∧ allAtomic (availabilityPost tid st en s).2.avail)
    ∧ (startsUnique (cancel uid bid s).2.avail
      ∧ allAtomic (cancel uid bid s).2.avail) := by
  obtain ⟨h1, h2⟩ := h
  constructor
  · simp only [availabilityPost]
    by_cases hempty : (splitIntoGridSlots st en).length = 0
    · rw [if_pos hempty]
      exact ⟨h1, h2⟩
    · rw [if_neg hempty]
      exact insertSlots_invariant tid _ (splitIntoGridSlots_width st en) s h1 h2
  · rcases hfind : s.bookings.find?
        (fun b => b.id == bid && b.studentId == uid) with _ | b
    · simp only [cancel, hfind]
      exact ⟨h1, h2⟩
    · simp only [cancel, hfind, cancelFound]
      by_cases hpr : b.status = BookingStatus.paid ∨
          b.status = BookingStatus.refunded
      · rw [if_pos hpr]
        exact ⟨h1, h2⟩
      · rw [if_neg hpr]
        by_cases hreq : (buildAtomicStarts b.startMs b.endMs).length = 0
        · rw [if_pos hreq]
          exact ⟨h1, h2⟩
        · rw [if_neg hreq]
          by_cases hrows : (mkRestoreRows b.teacherId s.nextAvailId
              ((buildAtomicStarts b.startMs b.endMs).filter (fun t =>
                !(((s.avail.filter (fun r => r.teacherId == b.teacherId &&
                    (buildAtomicStarts b.startMs b.endMs).contains r.startMs)).map
                    (fun r => r.startMs)).contains t)))).length = 0
          · rw [if_pos hrows]
            exact ⟨h1, h2⟩
          · rw [if_neg hrows]
            have hne : ((buildAtomicStarts b.startMs b.endMs).filter (fun t =>
                !(((s.avail.filter (fun r => r.teacherId == b.teacherId &&
                    (buildAtomicStarts b.startMs b.endMs).contains r.startMs)).map
                    (fun r => r.startMs)).contains t))).Pairwise
                  (fun a b => a ≠ b) :=
              (buildAtomicStarts_ne b.startMs b.endMs).filter _
            constructor
            · unfold startsUnique at h1 ⊢
              refine List.pairwise_append.mpr ⟨h1, ?_, ?_⟩
              · refine (mkRestoreRows_pairwise _ _ hne s.nextAvailId).imp ?_
                intro a c hac
                exact fun _ => hac
              · intro a ha row hrow
                obtain ⟨hrt, hrs, _⟩ := mkRestoreRows_mem _ _ s.nextAvailId row hrow
                rw [List.mem_filter] at hrs
                obtain ⟨hrs1, hrs2⟩ := hrs
                intro hteach heq
                have hamem : a ∈ s.avail.filter (fun r => r.teacherId == b.teacherId &&
                    (buildAtomicStarts b.startMs b.endMs).contains r.startMs) := by
                  rw [List.mem_filter]
                  refine ⟨ha, ?_⟩
                  simp only [Bool.and_eq_true, beq_iff_eq]
                  refine ⟨by rw [hteach, hrt], ?_⟩
                  rw [heq]
                  unfold List.contains
                  exact List.elem_eq_true_of_mem hrs1
                have : row.startMs ∈ (s.avail.filter (fun r => r.teacherId == b.teacherId &&
                    (buildAtomicStarts b.startMs b.endMs).contains r.startMs)).map
                    (fun r => r.startMs) :=
                  List.mem_map.mpr ⟨a, hamem, heq⟩
                have hcontains : ((s.avail.filter (fun r =>
                    r.teacherId == b.teacherId &&
                      (buildAtomicStarts b.startMs b.endMs).contains
                        r.startMs)).map (fun r => r.startMs)).contains
                    row.startMs = true := by
                  unfold List.contains
                  exact List.elem_eq_true_of_mem this
                rw [hcontains] at hrs2
                exact Bool.noConfusion hrs2
            · unfold allAtomic at h2 ⊢
              intro r hr
              rcases List.mem_append.mp hr with hr' | hr'
              · exact h2 r hr'
              · exact (mkRestoreRows_mem _ _ s.nextAvailId r hr').2.2

theorem availability_invariant_preserved_witness :
    (startsUnique (⟨[⟨1, 1, 0, 1800000⟩], [], [], 1, 2⟩ : DBState).avail
      ∧ allAtomic (⟨[⟨1, 1, 0, 1800000⟩], [], [], 1, 2⟩ : DBState).avail)
    ∧ ((startsUnique (availabilityPost 1 0 1800000
          ⟨[⟨1, 1, 0, 1800000⟩], [], [], 1, 2⟩).2.avail
        ∧ allAtomic (availabilityPost 1 0 1800000
            ⟨[⟨1, 1, 0, 1800000⟩], [], [], 1, 2⟩).2.avail)
      ∧ (startsUnique (cancel 9 5 ⟨[⟨1, 1, 0, 1800000⟩], [], [], 1, 2⟩).2.avail
        ∧ allAtomic (cancel 9 5
            ⟨[⟨1, 1, 0, 1800000⟩], [], [], 1, 2⟩).2.avail)) :=
  ⟨by decide, availability_invariant_preserved _ 1 0 1800000 9 5 (by decide)⟩

/-- C10 counterexample: from a state satisfying start-uniqueness alone (one
60-minute row), the manual availability POST inserts a 30-minute row with
the same start, because its duplicate check compares the full
`(teacherId, startUtc, endUtc)` triple; afterwards two rows of teacher 7
share start instant 0. -/
theorem availabilityPost_breaks_uniqueness :
    startsUnique [⟨1, 7, 0, 3600000⟩]
    ∧ ¬ startsUnique
        (availabilityPost 7 0 1800000
          ⟨[⟨1, 7, 0, 3600000⟩], [], [], 1, 2⟩).2.avail := by
  constructor
  · decide
  · decide

theorem find?_booking (l : List Booking) (b : Booking) (uid : Int)
    (hids : (l.map (fun x => x.id)).Nodup) (hb : b ∈ l)
    (hu : b.studentId = uid) :
    l.find? (fun x => x.id == b.id && x.studentId == uid) = some b := by
  induction l with
  | nil => exact absurd hb (List.not_mem_nil _)
  | cons a rest ih =>
    rw [List.map_cons, List.nodup_cons] at hids
    obtain ⟨hna, hrest⟩ := hids
    rcases List.mem_cons.mp hb with rfl | hb'
    · have hpred : (b.id == b.id && b.studentId == uid) = true := by
        simp [hu]
      exact List.find?_cons_of_pos _ hpred
    · have hne : a.id ≠ b.id := by
        intro he
        exact hna (he ▸ List.mem_map.mpr ⟨b, hb', rfl⟩)
    
      rw [List.find?_cons_of_neg _ (by simp [hne])]
      exact ih hrest hb'

/-- existingStartsOf: the starts of the atomic rows already present among
the starts the booking occupied (the duplicate-avoidance fetch of the
cancellation restore). -/
def existingStartsOf (s : DBState) (b : Booking) : List Int :=
  (s.avail.filter (fun r => r.teacherId == b.teacherId &&
    (buildAtomicStarts b.startMs b.endMs).contains r.startMs)).map
    (fun r => r.startMs)

/-- toInsertOf: the missing block starts the cancellation restore inserts. -/
def toInsertOf (s : DBState) (b : Booking) : List Int :=
  (buildAtomicStarts b.startMs b.endMs).filter
    (fun t => !((existingStartsOf s b).contains t))

/-- cancelT: the booking list after the `status = canceled` update. -/
def cancelT (s : DBState) (b : Booking) : List Booking :=
  s.bookings.map (fun x =>
    if x.id = b.id then { x with status := BookingStatus.canceled } else x)

theorem mkRestoreRows_map_starts (tid : Int) (starts : List Int) :
    ∀ nid : Int, (mkRestoreRows tid nid starts).map (fun r => r.startMs) =
      starts := by
  induction starts with
  | nil => intro nid; rfl
  | cons t rest ih =>
    intro nid
    simp only [mkRestoreRows, List.map_cons]
    rw [ih (nid + 1)]

theorem cancel_pending_eq (s : DBState) (b : Booking) (uid : Int)
    (hids : (s.bookings.map (fun x => x.id)).Nodup)
    (hb : b ∈ s.bookings) (hstatus : b.status = BookingStatus.pending)
    (hu : b.studentId = uid) :
    cancel uid b.id s =
      (CancelResult.ok
          (mkRestoreRows b.teacherId s.nextAvailId (toInsertOf s b)).length,
        ⟨s.avail ++ mkRestoreRows b.teacherId s.nextAvailId (toInsertOf s b),
          s.offers, cancelT s b, s.nextBookingId,
          s.nextAvailId +
            (mkRestoreRows b.teacherId s.nextAvailId (toInsertOf s b)).length⟩) := by
  have hfind := find?_booking s.bookings b uid hids hb hu
  have h1 : ¬(b.status = BookingStatus.paid ∨
      b.status = BookingStatus.refunded) := by
    rw [hstatus]; simp
  have h2 : ¬(b.status = BookingStatus.canceled) := by
    rw [hstatus]; simp
  simp only [cancel, hfind, cancelFound, if_neg h1, if_neg h2]
  by_cases hreq : (buildAtomicStarts b.startMs b.endMs).length = 0
  · rw [if_pos hreq]
    have hreqnil : buildAtomicStarts b.startMs b.endMs = [] :=
      List.length_eq_zero.mp hreq
    have htonil : toInsertOf s b = [] := by
      unfold toInsertOf
      rw [hreqnil]
      rfl
    rw [htonil]
    simp [cancelT, mkRestoreRows]
  · rw [if_neg hreq]
    by_cases hrows : (mkRestoreRows b.teacherId s.nextAvailId
        (toInsertOf s b)).length = 0
    · have h0 := hrows
      rw [show (mkRestoreRows b.teacherId s.nextAvailId (toInsertOf s b)) =
          mkRestoreRows b.teacherId s.nextAvailId
            ((buildAtomicStarts b.startMs b.endMs).filter (fun t =>
              !(((s.avail.filter (fun r => r.teacherId == b.teacherId &&
                  (buildAtomicStarts b.startMs b.endMs).contains r.startMs)).map
                  (fun r => r.startMs)).contains t))) from rfl] at h0
      rw [if_pos h0]
      have hnil := List.length_eq_zero.mp hrows
      rw [hnil]
      simp [cancelT, mkRestoreRows]
  
    · have h0 := hrows
      rw [show (mkRestoreRows b.teacherId s.nextAvailId (toInsertOf s b)) =
          mkRestoreRows b.teacherId s.nextAvailId
            ((buildAtomicStarts b.startMs b.endMs).filter (fun t =>
              !(((s.avail.filter (fun r => r.teacherId == b.teacherId &&
                  (buildAtomicStarts b.startMs b.endMs).contains r.startMs)).map
                  (fun r => r.startMs)).contains t))) from rfl] at h0
      rw [if_neg h0]
      rfl

theorem cancel_canceled_eq (s : DBState) (b : Booking) (uid : Int)
    (hids : (s.bookings.map (fun x => x.id)).Nodup)
    (hb : b ∈ s.bookings) (hstatus : b.status = BookingStatus.canceled)
    (hu : b.studentId = uid) :
    cancel uid b.id s =
      (CancelResult.ok
          (mkRestoreRows b.teacherId s.nextAvailId (toInsertOf s b)).length,
        ⟨s.avail ++ mkRestoreRows b.teacherId s.nextAvailId (toInsertOf s b),
          s.offers, s.bookings, s.nextBookingId,
          s.nextAvailId +
            (mkRestoreRows b.teacherId s.nextAvailId (toInsertOf s b)).length⟩) := by
  have hfind := find?_booking s.bookings b uid hids hb hu
  have h1 : ¬(b.status = BookingStatus.paid ∨
      b.status = BookingStatus.refunded) := by
    rw [hstatus]; simp
  simp only [cancel, hfind, cancelFound, if_neg h1, if_pos hstatus]
  by_cases hreq : (buildAtomicStarts b.startMs b.endMs).length = 0
  · rw [if_pos hreq]
    have hreqnil : buildAtomicStarts b.startMs b.endMs = [] :=
      List.length_eq_zero.mp hreq
    have htonil : toInsertOf s b = [] := by
      unfold toInsertOf
      rw [hreqnil]
      rfl
    rw [htonil]
    simp [mkRestoreRows]
  · rw [if_neg hreq]
    by_cases hrows : (mkRestoreRows b.teacherId s.nextAvailId
        (toInsertOf s b)).length = 0
    · have h0 := hrows
      rw [show (mkRestoreRows b.teacherId s.nextAvailId (toInsertOf s b)) =
          mkRestoreRows b.teacherId s.nextAvailId
            ((buildAtomicStarts b.startMs b.endMs).filter (fun t =>
              !(((s.avail.filter (fun r => r.teacherId == b.teacherId &&
                  (buildAtomicStarts b.startMs b.endMs).contains r.startMs)).map
                  (fun r => r.startMs)).contains t))) from rfl] at h0
      rw [if_pos h0]
      have hnil := List.length_eq_zero.mp hrows
      rw [hnil]
      simp [mkRestoreRows]
    · have h0 := hrows
      rw [show (mkRestoreRows b.teacherId s.nextAvailId (toInsertOf s b)) =
          mkRestoreRows b.teacherId s.nextAvailId
            ((buildAtomicStarts b.startMs b.endMs).filter (fun t =>
              !(((s.avail.filter (fun r => r.teacherId == b.teacherId &&
                  (buildAtomicStarts b.startMs b.endMs).contains r.startMs)).map
                  (fun r => r.startMs)).contains t))) from rfl] at h0
      rw [if_neg h0]
      rfl

theorem cancelT_ids (s : DBState) (b : Booking) :
    (cancelT s b).map (fun x => x.id) = s.bookings.map (fun x => x.id) := by
  unfold cancelT
  rw [List.map_map]
  refine List.map_congr_left ?_
  intro x _
  by_cases h : x.id = b.id
  · simp only [Function.comp_apply, if_pos h]
  · simp only [Function.comp_apply, if_neg h]

theorem cancel_second (s : DBState) (b : Booking) (uid : Int)
    (hids : (s.bookings.map (fun x => x.id)).Nodup)
    (hb : b ∈ s.bookings) (hstatus : b.status = BookingStatus.pending)
    (hu : b.studentId = uid) :
    cancel uid b.id ((cancel uid b.id s).2) =
      (CancelResult.ok 0, (cancel uid b.id s).2) := by
  rw [cancel_pending_eq s b uid hids hb hstatus hu]
  dsimp only
  set rows := mkRestoreRows b.teacherId s.nextAvailId (toInsertOf s b)
    with hrowsdef
  set s1 : DBState := ⟨s.avail ++ rows, s.offers, cancelT s b,
    s.nextBookingId, s.nextAvailId + rows.length⟩ with hs1def
  set b' : Booking := { b with status := BookingStatus.canceled } with hbpdef
  have hb1 : b' ∈ s1.bookings := by
    rw [hs1def]
    exact List.mem_map.mpr ⟨b, hb, by rw [if_pos rfl]⟩
  have hids1 : (s1.bookings.map (fun x => x.id)).Nodup := by
    rw [hs1def]
    dsimp only
    rw [cancelT_ids]
    exact hids
  have hbid : b'.id = b.id := rfl
  have heq := cancel_canceled_eq s1 b' uid hids1 hb1 rfl hu
  rw [hbid] at heq
  rw [heq]
  have hto1 : toInsertOf s1 b' = [] := by
    unfold toInsertOf
    refine List.filter_eq_nil_iff.mpr ?_
    intro t ht
    have hcov : t ∈ existingStartsOf s1 b' := by
      by_cases hex : t ∈ existingStartsOf s b
      · unfold existingStartsOf at hex ⊢
        obtain ⟨a, hafil, hav⟩ := List.mem_map.mp hex
        rw [List.mem_filter] at hafil
        obtain ⟨hamem, hapred⟩ := hafil
        refine List.mem_map.mpr ⟨a, ?_, hav⟩
        rw [List.mem_filter]
        refine ⟨?_, hapred⟩
        rw [hs1def]
        exact List.mem_append.mpr (Or.inl hamem)
      · have htin : t ∈ toInsertOf s b := by
          unfold toInsertOf
          rw [List.mem_filter]
          refine ⟨ht, ?_⟩
          rw [Bool.not_eq_true']
          by_cases hc : ((existingStartsOf s b).contains t) = true
          · exact absurd (List.mem_of_elem_eq_true hc) hex
          · exact Bool.not_eq_true _ ▸ Bool.eq_false_iff.mpr hc
        have : t ∈ rows.map (fun r => r.startMs) := by
          rw [hrowsdef, mkRestoreRows_map_starts]
          exact htin
        obtain ⟨row, hrow, hrowt⟩ := List.mem_map.mp this
        have hprops := mkRestoreRows_mem b.teacherId (toInsertOf s b)
          s.nextAvailId row (hrowsdef ▸ hrow)
        unfold existingStartsOf
        refine List.mem_map.mpr ⟨row, ?_, hrowt⟩
        rw [List.mem_filter]
        constructor
        · rw [hs1def]
          exact List.mem_append.mpr (Or.inr hrow)
        · simp only [Bool.and_eq_true, beq_iff_eq]
          refine ⟨hprops.1, ?_⟩
          unfold List.contains
          refine List.elem_eq_true_of_mem ?_
          rw [hrowt]
          exact ht
    unfold List.contains at hcov ⊢
    rw [List.elem_eq_true_of_mem hcov]
    simp
  rw [hto1]
  simp [mkRestoreRows]

/-- C7: cancelling a pending booking owned by the requesting student marks
it canceled and inserts exactly the 30-minute atomic rows implied by the
booking's `[startUtc, endUtc)` whose start instants are not already
present for that teacher (`toInsertOf`); immediately cancelling the same
booking again succeeds, reports zero newly-restored rows, and leaves the
state unchanged. -/
theorem cancel_spec (s : DBState) (b : Booking) (uid : Int)
    (hids : (s.bookings.map (fun x => x.id)).Nodup)
    (hb : b ∈ s.bookings) (hstatus : b.status = BookingStatus.pending)
    (hu : b.studentId = uid) :
    ∃ newRows : List AvailRow,
      cancel uid b.id s =
        (CancelResult.ok newRows.length,
          ⟨s.avail ++ newRows, s.offers, cancelT s b, s.nextBookingId,
            s.nextAvailId + newRows.length⟩)
      ∧ { b with status := BookingStatus.canceled } ∈
          (cancel uid b.id s).2.bookings
      ∧ newRows.map (fun r => r.startMs) = toInsertOf s b
      ∧ (∀ r ∈ newRows,
          r.teacherId = b.teacherId ∧ r.endMs = r.startMs + 1800000)
      ∧ cancel uid b.id ((cancel uid b.id s).2) =
          (CancelResult.ok 0, (cancel uid b.id s).2) := by
  refine ⟨mkRestoreRows b.teacherId s.nextAvailId (toInsertOf s b),
    cancel_pending_eq s b uid hids hb hstatus hu, ?_, ?_, ?_,
    cancel_second s b uid hids hb hstatus hu⟩
  · rw [cancel_pending_eq s b uid hids hb hstatus hu]
    dsimp only
    exact List.mem_map.mpr ⟨b, hb, by rw [if_pos rfl]⟩
  · exact mkRestoreRows_map_starts b.teacherId (toInsertOf s b) s.nextAvailId
  · intro r hr
    have := mkRestoreRows_mem b.teacherId (toInsertOf s b) s.nextAvailId r hr
    exact ⟨this.1, this.2.2⟩

theorem cancel_spec_witness :
    ((((⟨[], [], [⟨5, 1, 9, 0, 3600000, 60, 5000, "EUR",
          BookingStatus.pending, none, none⟩], 6, 1⟩ : DBState)).bookings.map
        (fun x => x.id)).Nodup
    ∧ (⟨5, 1, 9, 0, 3600000, 60, 5000, "EUR", BookingStatus.pending,
          none, none⟩ : Booking) ∈
        (⟨[], [], [⟨5, 1, 9, 0, 3600000, 60, 5000, "EUR",
          BookingStatus.pending, none, none⟩], 6, 1⟩ : DBState).bookings
    ∧ (⟨5, 1, 9, 0, 3600000, 60, 5000, "EUR", BookingStatus.pending,
          none, none⟩ : Booking).status = BookingStatus.pending
    ∧ (⟨5, 1, 9, 0, 3600000, 60, 5000, "EUR", BookingStatus.pending,
          none, none⟩ : Booking).studentId = 9)
    ∧ ∃ newRows : List AvailRow,
        cancel 9 (5 : Int)
            ⟨[], [], [⟨5, 1, 9, 0, 3600000, 60, 5000, "EUR",
              BookingStatus.pending, none, none⟩], 6, 1⟩ =
          (CancelResult.ok newRows.length,
            ⟨([] : List AvailRow) ++ newRows, [],
              cancelT ⟨[], [], [⟨5, 1, 9, 0, 3600000, 60, 5000, "EUR",
                BookingStatus.pending, none, none⟩], 6, 1⟩
                ⟨5, 1, 9, 0, 3600000, 60, 5000, "EUR",
                  BookingStatus.pending, none, none⟩, 6,
              1 + newRows.length⟩)
        ∧ ({ (⟨5, 1, 9, 0, 3600000, 60, 5000, "EUR", BookingStatus.pending,
              none, none⟩ : Booking) with status := BookingStatus.canceled }) ∈
            (cancel 9 (5 : Int)
              ⟨[], [], [⟨5, 1, 9, 0, 3600000, 60, 5000, "EUR",
                BookingStatus.pending, none, none⟩], 6, 1⟩).2.bookings
        ∧ newRows.map (fun r => r.startMs) =
            toInsertOf ⟨[], [], [⟨5, 1, 9, 0, 3600000, 60, 5000, "EUR",
                BookingStatus.pending, none, none⟩], 6, 1⟩
              ⟨5, 1, 9, 0, 3600000, 60, 5000, "EUR", BookingStatus.pending,
                none, none⟩
        ∧ (∀ r ∈ newRows, r.teacherId = 1 ∧ r.endMs = r.startMs + 1800000)
        ∧ cancel 9 (5 : Int)
              ((cancel 9 (5 : Int)
                ⟨[], [], [⟨5, 1, 9, 0, 3600000, 60, 5000, "EUR",
                  BookingStatus.pending, none, none⟩], 6, 1⟩).2) =
            (CancelResult.ok 0,
              (cancel 9 (5 : Int)
                ⟨[], [], [⟨5, 1, 9, 0, 3600000, 60, 5000, "EUR",
                  BookingStatus.pending, none, none⟩], 6, 1⟩).2) :=
  ⟨⟨by decide, by decide, rfl, rfl⟩,
    cancel_spec ⟨[], [], [⟨5, 1, 9, 0, 3600000, 60, 5000, "EUR",
        BookingStatus.pending, none, none⟩], 6, 1⟩
      ⟨5, 1, 9, 0, 3600000, 60, 5000, "EUR", BookingStatus.pending,
        none, none⟩ 9 (by decide) (by decide) rfl rfl⟩

theorem requiredStartsFor_nodup (st dur : Int) :
    (requiredStartsFor st dur).Nodup := by
  unfold requiredStartsFor
  by_cases h : dur = 60
  · rw [if_pos h]
    refine List.nodup_cons.mpr ⟨?_, List.nodup_singleton _⟩
    rw [List.mem_singleton]
    omega
  · rw [if_neg h]
    exact List.nodup_singleton _

theorem fetchAvailRows_facts (s : DBState) (tid : Int) (req : List Int) :
    ∀ r ∈ fetchAvailRows s tid req,
      r ∈ s.avail ∧ r.teacherId = tid ∧ r.startMs ∈ req := by
  intro r hr
  unfold fetchAvailRows at hr
  rw [List.mem_filter] at hr
  obtain ⟨h1, h2⟩ := hr
  simp only [Bool.and_eq_true, beq_iff_eq] at h2
  exact ⟨h1, h2.1, List.mem_of_elem_eq_true h2.2⟩

theorem fetchAvailRows_mem (s : DBState) (tid : Int) (req : List Int) :
    ∀ r ∈ s.avail, r.teacherId = tid → r.startMs ∈ req →
      r ∈ fetchAvailRows s tid req := by
  intro r hr h1 h2
  unfold fetchAvailRows
  rw [List.mem_filter]
  refine ⟨hr, ?_⟩
  simp only [Bool.and_eq_true, beq_iff_eq]
  exact ⟨h1, List.elem_eq_true_of_mem h2⟩

theorem fetchAvailRows_nodup_starts (s : DBState) (tid : Int)
    (req : List Int) (huniq : startsUnique s.avail) :
    ((fetchAvailRows s tid req).map (fun r => r.startMs)).Nodup := by
  have hpw : (fetchAvailRows s tid req).Pairwise
      (fun a b => a.teacherId = b.teacherId → a.startMs ≠ b.startMs) := by
    unfold startsUnique at huniq
    unfold fetchAvailRows
    exact huniq.filter _
  have hpw2 : (fetchAvailRows s tid req).Pairwise
      (fun a b => a.startMs ≠ b.startMs) := by
    refine List.Pairwise.imp_of_mem ?_ hpw
    intro a b ha hb hab
    have h1 := (fetchAvailRows_facts s tid req a ha).2.1
    have h2 := (fetchAvailRows_facts s tid req b hb).2.1
    exact hab (h1.trans h2.symm)
  exact List.pairwise_map.mpr hpw2

theorem fetchAvailRows_short (s : DBState) (tid : Int) (req : List Int)
    (_hnd : req.Nodup) (huniq : startsUnique s.avail) (t : Int) (ht : t ∈ req)
    (hnorow : ∀ r ∈ s.avail, ¬(r.teacherId = tid ∧ r.startMs = t)) :
    (fetchAvailRows s tid req).length < req.length := by
  have hsub : (fetchAvailRows s tid req).map (fun r => r.startMs) ⊆
      req.erase t := by
    intro x hx
    obtain ⟨r, hr, hrx⟩ := List.mem_map.mp hx
    obtain ⟨hmem, hrt, hrs⟩ := fetchAvailRows_facts s tid req r hr
    have hxne : x ≠ t := by
      intro he
      exact hnorow r hmem ⟨hrt, by rw [hrx, he]⟩
    rw [List.mem_erase_of_ne hxne]
    exact hrx ▸ hrs
  have hnd2 := fetchAvailRows_nodup_starts s tid req huniq
  have hle := (List.subperm_of_subset hnd2 hsub).length_le
  rw [List.length_map] at hle
  have := List.length_erase_add_one ht
  omega

theorem fetchAvailRows_exists_start (s : DBState) (tid : Int)
    (req : List Int) (hnd : req.Nodup) (huniq : startsUnique s.avail)
    (hlen : (fetchAvailRows s tid req).length = req.length) (t : Int)
    (ht : t ∈ req) :
    ∃ r ∈ s.avail, r.teacherId = tid ∧ r.startMs = t := by
  by_contra hno
  have hnorow : ∀ r ∈ s.avail, ¬(r.teacherId = tid ∧ r.startMs = t) := by
    intro r hr hand
    exact hno ⟨r, hr, hand⟩
  have := fetchAvailRows_short s tid req hnd huniq t ht hnorow
  omega

theorem checkout_ok_inv (d : Bool) (ss : Option String) (uid : Int)
    (s : DBState) (req : CheckoutReq) (bid : Int) (s' : DBState)
    (h : checkout d ss uid s req = (Except.ok bid, s')) :
    (fetchAvailRows s req.teacherId
        (requiredStartsFor req.startMs req.durationMinutes)).length =
      (requiredStartsFor req.startMs req.durationMinutes).length
    ∧ s'.avail = s.avail.filter (fun r =>
        !(((fetchAvailRows s req.teacherId
            (requiredStartsFor req.startMs req.durationMinutes)).map
            (fun r => r.id)).contains r.id)) := by
  unfold checkout at h
  by_cases hdur : req.durationMinutes = 30 ∨ req.durationMinutes = 60
  · rw [if_pos hdur] at h
    rcases htx : checkoutTx d ss uid s req with e | p
    · rw [htx] at h
      exact absurd (congrArg Prod.fst h) (by simp)
    · obtain ⟨bid', s''⟩ := p
      rw [htx] at h
      have hs : s'' = s' := by
        have := congrArg Prod.snd h
        simpa using this
      subst hs
      rcases hfo : findOffer s req.teacherId req.durationMinutes with _ | offer
      · simp only [checkoutTx, hfo] at htx
        exact absurd htx (by simp)
      · simp only [checkoutTx, hfo] at htx
        by_cases hlen : (fetchAvailRows s req.teacherId
            (requiredStartsFor req.startMs req.durationMinutes)).length ≠
          (requiredStartsFor req.startMs req.durationMinutes).length
        · rw [if_pos hlen] at htx
          exact absurd htx (by simp)
        · rw [if_neg hlen] at htx
          refine ⟨by omega, ?_⟩
          by_cases hall : ((fetchAvailRows s req.teacherId
              (requiredStartsFor req.startMs req.durationMinutes)).all
              (fun r => r.endMs - r.startMs == 1800000)) = false
          · rw [if_pos hall] at htx
            exact absurd htx (by simp)
          · rw [if_neg hall] at htx
            by_cases hd : d = true
            · rw [if_pos hd] at htx
              have hpair := Except.ok.inj htx
              rw [Prod.mk.injEq] at hpair
              rw [← hpair.2]
            · rw [if_neg hd] at htx
              rcases ss with _ | sid
              · exact absurd htx (by simp)
              · have hpair := Except.ok.inj htx
                rw [Prod.mk.injEq] at hpair
                rw [← hpair.2]
  · rw [if_neg hdur] at h
    exact absurd (congrArg Prod.fst h) (by simp)

theorem checkout_success_locks (d : Bool) (ss : Option String) (uid : Int)
    (s : DBState) (req : CheckoutReq) (bid t : Int)
    (huniq : startsUnique s.avail)
    (ht : t ∈ requiredStartsFor req.startMs req.durationMinutes)
    (hwin : (checkout d ss uid s req).1 = Except.ok bid) :
    (∀ r ∈ (checkout d ss uid s req).2.avail,
        ¬(r.teacherId = req.teacherId ∧ r.startMs = t))
    ∧ startsUnique (checkout d ss uid s req).2.avail := by
  have hpair : checkout d ss uid s req =
      (Except.ok bid, (checkout d ss uid s req).2) := by
    rw [← hwin]
  obtain ⟨hlen, havail⟩ := checkout_ok_inv d ss uid s req bid _ hpair
  constructor
  · intro r hr hand
    rw [havail] at hr
    rw [List.mem_filter] at hr
    obtain ⟨hrs, hrnotdel⟩ := hr
    obtain ⟨r0, hr0, hr0t, hr0s⟩ := fetchAvailRows_exists_start s
      req.teacherId _ (requiredStartsFor_nodup _ _) huniq hlen t ht
    have hrr0 : r = r0 := by
      by_contra hne
      have hsym : Symmetric (fun a b : AvailRow =>
          a.teacherId = b.teacherId → a.startMs ≠ b.startMs) := by
        intro a b hab hba hst
        exact hab hba.symm hst.symm
      have := List.Pairwise.forall hsym huniq hrs hr0 hne
      exact this (hand.1.trans hr0t.symm) (hand.2.trans hr0s.symm)
    have hr0fetch : r0 ∈ fetchAvailRows s req.teacherId
        (requiredStartsFor req.startMs req.durationMinutes) :=
      fetchAvailRows_mem s req.teacherId _ r0 hr0 hr0t (hr0s ▸ ht)
    have hidmem : r.id ∈ (fetchAvailRows s req.teacherId
        (requiredStartsFor req.startMs req.durationMinutes)).map
        (fun r => r.id) := by
      rw [hrr0]
      exact List.mem_map.mpr ⟨r0, hr0fetch, rfl⟩
    have hcontains := List.elem_eq_true_of_mem hidmem
    unfold List.contains at hrnotdel
    rw [hcontains] at hrnotdel
    exact Bool.noConfusion hrnotdel
  · rw [havail]
    unfold startsUnique at huniq ⊢
    exact huniq.filter _

theorem checkout_blocked_fails (d : Bool) (ss : Option String) (uid : Int)
    (s : DBState) (req : CheckoutReq) (t : Int)
    (huniq : startsUnique s.avail)
    (ht : t ∈ requiredStartsFor req.startMs req.durationMinutes)
    (hnorow : ∀ r ∈ s.avail, ¬(r.teacherId = req.teacherId ∧ r.startMs = t)) :
    (∀ bid, (checkout d ss uid s req).1 ≠ Except.ok bid)
    ∧ (checkout d ss uid s req).2 = s
    ∧ ((req.durationMinutes = 30 ∨ req.durationMinutes = 60) →
        ∀ o, findOffer s req.teacherId req.durationMinutes = some o →
        (checkout d ss uid s req).1 = Except.error "Slot not available") := by
  by_cases hdur : req.durationMinutes = 30 ∨ req.durationMinutes = 60
  · rcases hfo : findOffer s req.teacherId req.durationMinutes with _ | offer
    · have htx : checkoutTx d ss uid s req =
          Except.error "No price for this duration" := by
        simp only [checkoutTx, hfo]
      have := checkout_of_tx_error d ss uid s req _ hdur htx
      rw [this]
      refine ⟨by simp, rfl, ?_⟩
      intro _ o ho
      exact absurd ho (by simp)
    · have hshort := fetchAvailRows_short s req.teacherId
        (requiredStartsFor req.startMs req.durationMinutes)
        (requiredStartsFor_nodup _ _) huniq t ht hnorow
      have htx : checkoutTx d ss uid s req =
          Except.error "Slot not available" := by
        simp only [checkoutTx, hfo]
        rw [if_pos (by omega)]
      have := checkout_of_tx_error d ss uid s req _ hdur htx
      rw [this]
      exact ⟨by simp, rfl, fun _ _ _ => rfl⟩
  · unfold checkout
    rw [if_neg hdur]
    exact ⟨by simp, rfl, fun h => absurd h hdur⟩

/-- C1 amended: with per-teacher start-uniqueness of the availability rows,
two reservation attempts that require a common atomic block start of the
same teacher cannot both succeed under any order of their (atomic)
transactions: if the first commits, the second creates no booking, changes
nothing, and -- whenever its duration passes the 30/60 validation and an
active price offer exists for it -- fails exactly with the
"Slot not available" conflict error.  (Without an offer the second attempt
still fails, but with "No price for this duration": see the
counterexample theorem.) -/
theorem checkout_exclusive (d1 d2 : Bool) (ss1 ss2 : Option String)
    (uid1 uid2 : Int) (s : DBState) (req1 req2 : CheckoutReq) (t bid : Int)
    (huniq : startsUnique s.avail)
    (hteacher : req2.teacherId = req1.teacherId)
    (ht1 : t ∈ requiredStartsFor req1.startMs req1.durationMinutes)
    (ht2 : t ∈ requiredStartsFor req2.startMs req2.durationMinutes)
    (hwin : (checkout d1 ss1 uid1 s req1).1 = Except.ok bid) :
    (∀ bid2, (checkout d2 ss2 uid2 (checkout d1 ss1 uid1 s req1).2 req2).1 ≠
        Except.ok bid2)
    ∧ (checkout d2 ss2 uid2 (checkout d1 ss1 uid1 s req1).2 req2).2 =
        (checkout d1 ss1 uid1 s req1).2
    ∧ ((req2.durationMinutes = 30 ∨ req2.durationMinutes = 60) →
        ∀ o, findOffer (checkout d1 ss1 uid1 s req1).2 req2.teacherId
            req2.durationMinutes = some o →
        (checkout d2 ss2 uid2 (checkout d1 ss1 uid1 s req1).2 req2).1 =
          Except.error "Slot not available") := by
  obtain ⟨hnorow, huniq1⟩ :=
    checkout_success_locks d1 ss1 uid1 s req1 bid t huniq ht1 hwin
  refine checkout_blocked_fails d2 ss2 uid2 _ req2 t huniq1 ht2 ?_
  intro r hr hand
  exact hnorow r hr ⟨hand.1.trans hteacher, hand.2⟩

/-- C1 counterexample: both attempts require the single atomic block at
instant 0 of teacher 1; the 30-minute attempt succeeds, and the losing
60-minute attempt fails -- but with the error "No price for this duration"
(the offer lookup precedes the availability check), not with the
"Slot not available" conflict error the claim demands for the losing
attempt. -/
theorem checkout_exclusive_counterexample :
    (0 : Int) ∈ requiredStartsFor 0 30
    ∧ (0 : Int) ∈ requiredStartsFor 0 60
    ∧ (checkout true none 9
        ⟨[⟨1, 1, 0, 1800000⟩], [⟨1, 30, 5000, "EUR", 1⟩], [], 1, 2⟩
        ⟨1, 0, 30⟩).1 = Except.ok 1
    ∧ (checkout true none 8
        ((checkout true none 9
          ⟨[⟨1, 1, 0, 1800000⟩], [⟨1, 30, 5000, "EUR", 1⟩], [], 1, 2⟩
          ⟨1, 0, 30⟩).2) ⟨1, 0, 60⟩).1 =
        Except.error "No price for this duration"
    ∧ "No price for this duration" ≠ "Slot not available" := by
  refine ⟨by decide, by decide, by decide, by decide, by decide⟩

theorem checkout_exclusive_witness :
    (startsUnique (⟨[⟨1, 1, 0, 1800000⟩], [⟨1, 30, 5000, "EUR", 1⟩], [], 1,
        2⟩ : DBState).avail
      ∧ (⟨1, 0, 60⟩ : CheckoutReq).teacherId = (⟨1, 0, 30⟩ : CheckoutReq).teacherId
      ∧ (0 : Int) ∈ requiredStartsFor 0 30
      ∧ (0 : Int) ∈ requiredStartsFor 0 60
      ∧ (checkout true none 9
          ⟨[⟨1, 1, 0, 1800000⟩], [⟨1, 30, 5000, "EUR", 1⟩], [], 1, 2⟩
          ⟨1, 0, 30⟩).1 = Except.ok 1)
    ∧ ((∀ bid2, (checkout true none 8
          ((checkout true none 9
            ⟨[⟨1, 1, 0, 1800000⟩], [⟨1, 30, 5000, "EUR", 1⟩], [], 1, 2⟩
            ⟨1, 0, 30⟩).2) ⟨1, 0, 60⟩).1 ≠ Except.ok bid2)
      ∧ (checkout true none 8
          ((checkout true none 9
            ⟨[⟨1, 1, 0, 1800000⟩], [⟨1, 30, 5000, "EUR", 1⟩], [], 1, 2⟩
            ⟨1, 0, 30⟩).2) ⟨1, 0, 60⟩).2 =
          (checkout true none 9
            ⟨[⟨1, 1, 0, 1800000⟩], [⟨1, 30, 5000, "EUR", 1⟩], [], 1, 2⟩
            ⟨1, 0, 30⟩).2
      ∧ (((⟨1, 0, 60⟩ : CheckoutReq).durationMinutes = 30 ∨
            (⟨1, 0, 60⟩ : CheckoutReq).durationMinutes = 60) →
          ∀ o, findOffer (checkout true none 9
              ⟨[⟨1, 1, 0, 1800000⟩], [⟨1, 30, 5000, "EUR", 1⟩], [], 1, 2⟩
              ⟨1, 0, 30⟩).2 (⟨1, 0, 60⟩ : CheckoutReq).teacherId
              (⟨1, 0, 60⟩ : CheckoutReq).durationMinutes = some o →
          (checkout true none 8
            ((checkout true none 9
              ⟨[⟨1, 1, 0, 1800000⟩], [⟨1, 30, 5000, "EUR", 1⟩], [], 1, 2⟩
              ⟨1, 0, 30⟩).2) ⟨1, 0, 60⟩).1 =
            Except.error "Slot not available")) :=
  ⟨⟨by decide, rfl, by decide, by decide, by decide⟩,
    checkout_exclusive true true none none 9 8
      ⟨[⟨1, 1, 0, 1800000⟩], [⟨1, 30, 5000, "EUR", 1⟩], [], 1, 2⟩
      ⟨1, 0, 30⟩ ⟨1, 0, 60⟩ 0 1 (by decide) rfl (by decide) (by decide)
      (by decide)⟩

end Space23
